import Mathlib

/-!
# Verification of the qnddb storage/table/cursor design

A shallow embedding of the qnddb library (a DynamoDB-style table facade with a
local in-memory storage engine, a lookup resolver, a pagination-token codec and
a lazy query cursor), together with proofs and refutations of the specified
properties.

Conventions of the embedding:

* Python dicts (records, key fragments, position keys) are association lists in
  insertion order; dict keys are unique by construction in Python, which is
  carried as `Nodup` hypotheses where it matters.
* `record.get(k)` returns `⊥ : WithBot V` for a missing field (Python `None`).
* Functions that can raise return `Option`/`Except`; `none`/`.error` is a raise.
* Record field values are drawn from an arbitrary linearly ordered type `V`
  (Python compares partition/sort values with a total order within one type).
-/

namespace Qnddb

/-- A record: an ordered mapping from field name to value (a Python dict). -/
abbrev Rec (V : Type) := List (String × V)

/-- `record.get(k)` as an optional value. -/
def rget? {V : Type} (r : Rec V) (f : String) : Option V :=
  (r.find? (fun p => p.1 == f)).map (fun p => p.2)

/-- `record.get(k)`: `⊥` models Python `None` for an absent field. -/
def rget {V : Type} (r : Rec V) (f : String) : WithBot V :=
  match rget? r f with
  | some v => (v : WithBot V)
  | none => ⊥

/-- The field names of a record, in insertion order. -/
def fieldsOf {V : Type} (r : Rec V) : List String := r.map (fun p => p.1)

/-- A value in a key fragment: a literal (equality test) or the `Between`
condition, the one `DynamoCondition` the library ships. -/
inductive KV (V : Type) where
  | lit (v : V)
  | between (lo hi : V)
deriving DecidableEq, Repr

/-- A key fragment: a Python dict from field name to literal or condition. -/
abbrev Frag (V : Type) := List (String × KV V)

/-- The equality half of `DynamoCondition.partition`. -/
def eqConds {V : Type} (frag : Frag V) : List (String × V) :=
  frag.filterMap (fun p =>
    match p.2 with
    | KV.lit v => some (p.1, v)
    | KV.between _ _ => none)

/-- The condition half of `DynamoCondition.partition` (lo/hi of each Between). -/
def specConds {V : Type} (frag : Frag V) : List (String × (V × V)) :=
  frag.filterMap (fun p =>
    match p.2 with
    | KV.lit _ => none
    | KV.between lo hi => some (p.1, (lo, hi)))

/-- `validate_only_sort_key`: `true` iff the check passes (the Python function
raises when a sort key is given and a condition sits on another field). -/
def validateOnlySortKey {V : Type} (conds : List (String × (V × V)))
    (sortKey : Option String) : Bool :=
  match sortKey with
  | none => true
  | some s => conds.all (fun p => p.1 == s)

variable {V : Type} [LinearOrder V]

/-- `Between.matches` evaluated on `record.get(field)`. -/
def betweenMatches (lo hi : V) (x : WithBot V) : Bool :=
  decide ((lo : WithBot V) ≤ x) && decide (x ≤ (hi : WithBot V))

/-- `LocalStorage._query_matches`. -/
def queryMatches (frag : Frag V) (r : Rec V) : Bool :=
  (eqConds frag).all (fun p => rget r p.1 == (p.2 : WithBot V)) &&
  (specConds frag).all (fun p => betweenMatches p.2.1 p.2.2 (rget r p.1))

/-- The record comparison used by `filtered.sort(key=lambda x: x[sort_key])`. -/
def sortLe (s : String) (a b : Rec V) : Prop := rget a s ≤ rget b s

instance (s : String) : DecidableRel (sortLe (V := V) s) := fun a b =>
  inferInstanceAs (Decidable (rget a s ≤ rget b s))

instance (s : String) : IsTotal (Rec V) (sortLe s) :=
  ⟨fun a b => le_total (rget a s) (rget b s)⟩

instance (s : String) : IsTrans (Rec V) (sortLe s) :=
  ⟨fun _ _ _ hab hbc => le_trans hab hbc⟩

/-- The filtering comprehension of `LocalStorage.query`. -/
def filteredRecords (records : List (Rec V)) (frag : Frag V) : List (Rec V) :=
  records.filter (queryMatches frag)

/-- The optional `filtered.sort(key=lambda x: x[sort_key])`. Python's
`list.sort` is a stable ascending sort, modelled by `List.insertionSort`.
The `KeyError` the sort raises when a filtered record lacks the sort key is
modelled separately by `sortOk` inside `localQuery`; this function gives the
order of the non-raising case. -/
def sortedRecords (records : List (Rec V)) (frag : Frag V)
    (sortKey : Option String) : List (Rec V) :=
  match sortKey with
  | some s => (filteredRecords records frag).insertionSort (sortLe s)
  | none => filteredRecords records frag

/-- The filtered, sorted, possibly reversed record sequence of
`LocalStorage.query` (lines before the pagination handling). -/
def orderedRecords (records : List (Rec V)) (frag : Frag V)
    (sortKey : Option String) (reverse : Bool) : List (Rec V) :=
  if reverse then (sortedRecords records frag sortKey).reverse
  else sortedRecords records frag sortKey

/-- One entry of a synthetic position key: a record field value, or the
synthetic offset used when no sort key exists. -/
inductive PosVal (V : Type) where
  | fv (x : WithBot V)
  | off (n : Nat)
deriving DecidableEq

/-- A synthetic position key (`extract_key`'s result): an ordered dict. -/
abbrev PosKey (V : Type) := List (String × PosVal V)

/-- `d[k] = v` on an ordered dict: overwrite in place or append. -/
def dictSet (d : PosKey V) (k : String) (v : PosVal V) : PosKey V :=
  if d.any (fun p => p.1 == k) then
    d.map (fun p => if p.1 == k then (p.1, v) else p)
  else d ++ [(k, v)]

/-- `extract_key(i, record)` of `LocalStorage.query`. -/
def extractKey (frag : Frag V) (sortKey : Option String) (i : Nat) (r : Rec V) :
    PosKey V :=
  let base : PosKey V := frag.map (fun p => (p.1, PosVal.fv (rget r p.1)))
  match sortKey with
  | none => dictSet base "offset" (PosVal.off i)
  | some s => dictSet base s (PosVal.fv (rget r s))

/-- Dict lookup on a position key. -/
def pkGet (d : PosKey V) (k : String) : Option (PosVal V) :=
  (d.find? (fun p => p.1 == k)).map (fun p => p.2)

/-- `orderable(key)`: the (partition, second-key) pair compared during
pagination; `none` models the IndexError/KeyError raise on malformed keys. -/
def orderable (sortKey : Option String) (d : PosKey V) :
    Option (PosVal V × PosVal V) := do
  let pk ← (d.find? (fun p =>
      match sortKey with
      | none => true
      | some s => !(p.1 == s))).map (fun p => p.1)
  let sk ← (d.find? (fun p => !(p.1 == pk))).map (fun p => p.1)
  let a ← pkGet d pk
  let b ← pkGet d sk
  pure (a, b)

/-- `<=` on position-key entries. Python raises a `TypeError` on a
value-vs-offset comparison; such a comparison never happens in a well-formed
run and is mapped to `false`. -/
def pvLE : PosVal V → PosVal V → Bool
  | PosVal.fv a, PosVal.fv b => decide (a ≤ b)
  | PosVal.off m, PosVal.off n => decide (m ≤ n)
  | _, _ => false

/-- Python tuple `<=`: the first position where the components differ is
compared; equal pairs compare by the second component. -/
def pairLE (a b : PosVal V × PosVal V) : Bool :=
  if a.1 == b.1 then pvLE a.2 b.2 else pvLE a.1 b.1

/-- `before_or_equal(key0, key1)`; `none` when `orderable` raises. -/
def beforeOrEqual (sortKey : Option String) (reverse : Bool)
    (k0 k1 : PosKey V) : Option Bool := do
  let a ← orderable sortKey k0
  let b ← orderable sortKey k1
  pure (if !reverse || sortKey.isNone then pairLE a b else pairLE b a)

/-- The pagination while-loop of `LocalStorage.query`: pop leading entries
whose position key is at-or-before the incoming token. `none` is a raise. -/
def dropTok (sortKey : Option String) (reverse : Bool) (tok : PosKey V) :
    List (PosKey V × Rec V) → Option (List (PosKey V × Rec V))
  | [] => some []
  | x :: xs =>
    match beforeOrEqual sortKey reverse x.1 tok with
    | none => none
    | some true => dropTok sortKey reverse tok xs
    | some false => some (x :: xs)

/-- The `(extract_key(i, r), r)` pairs of the ordered result sequence. -/
def withKeys (records : List (Rec V)) (frag : Frag V)
    (sortKey : Option String) (reverse : Bool) : List (PosKey V × Rec V) :=
  (orderedRecords records frag sortKey reverse).enum.map
    (fun p => (extractKey frag sortKey p.1 p.2, p.2))

/-- The post-token record sequence: the pagination while-loop applied when
the incoming token is truthy (a non-empty dict). -/
def afterTok (records : List (Rec V)) (frag : Frag V) (sortKey : Option String)
    (reverse : Bool) : Option (PosKey V) → Option (List (PosKey V × Rec V))
  | some t =>
    if t.isEmpty then some (withKeys records frag sortKey reverse)
    else dropTok sortKey reverse t (withKeys records frag sortKey reverse)
  | none => some (withKeys records frag sortKey reverse)

/-- Whether `filtered.sort(key=lambda x: x[sort_key])` runs without raising:
CPython applies the key function to every element (even of a one-element
list), so it raises `KeyError` as soon as any filtered record lacks the sort
key. `sortedRecords` gives the resulting order in the non-raising case. -/
def sortOk (records : List (Rec V)) (frag : Frag V)
    (sortKey : Option String) : Bool :=
  match sortKey with
  | none => true
  | some s => (filteredRecords records frag).all (fun r => (rget? r s).isSome)

/-- `LocalStorage.query` on one table's record list. Returns the page and the
next-page position key; `none` models a raise (a failed
`validate_only_sort_key`, a `KeyError` from the sort, or a raise in the
pagination loop). A `limit` of `none` or `0` and a token that is `none` or
the empty dict are falsy, as in Python. -/
def localQuery (records : List (Rec V)) (frag : Frag V)
    (sortKey : Option String) (reverse : Bool) (limit : Option Nat)
    (tok : Option (PosKey V)) : Option (List (Rec V) × Option (PosKey V)) :=
  if !validateOnlySortKey (specConds frag) sortKey then none else
  if !sortOk records frag sortKey then none else
  match afterTok records frag sortKey reverse tok with
  | none => none
  | some wk =>
    match limit with
    | some (l + 1) =>
      if l + 1 < wk.length then
        some (((wk.take (l + 1)).map (fun p => p.2)),
              ((wk.take (l + 1)).getLast?).map (fun p => p.1))
      else some (wk.map (fun p => p.2), none)
    | _ => some (wk.map (fun p => p.2), none)

/-- `LocalStorage.get_item`: a sort-key-less query, first record or none. -/
def localGetItem (records : List (Rec V)) (frag : Frag V) :
    Option (Option (Rec V)) :=
  (localQuery records frag none false none none).map (fun p => p.1.head?)

/-- Map a fallible function over a list; the first raise aborts. -/
def optMap {α β : Type} (f : α → Option β) : List α → Option (List β)
  | [] => some []
  | x :: xs =>
    match f x, optMap f xs with
    | some y, some ys => some (y :: ys)
    | _, _ => none

/-- Projection of one record onto the retained key fields
(`{key: record[key] for key in keys_to_retain}`); `none` is the KeyError. -/
def projectRecord (retain : List String) (r : Rec V) : Option (Rec V) :=
  optMap (fun k => (rget? r k).map (fun v => (k, v))) retain

/-- `LocalStorage.query_index`. `keys_to_retain` is a Python set built from the
fragment fields, the sort key and the table key names; it is modelled as the
deduplicated concatenation (only its membership is ever observable). -/
def localQueryIndex (records : List (Rec V)) (frag : Frag V)
    (sortKey : Option String) (reverse : Bool) (limit : Option Nat)
    (tok : Option (PosKey V)) (keysOnly : Bool) (tableKeyNames : List String) :
    Option (List (Rec V) × Option (PosKey V)) :=
  match localQuery records frag sortKey reverse limit tok with
  | none => none
  | some (rs, nt) =>
    if !keysOnly then some (rs, nt) else
    let retain := (frag.map (fun p => p.1) ++ sortKey.toList ++
      tableKeyNames).dedup
    match optMap (projectRecord retain) rs with
    | none => none
    | some rs' => some (rs', nt)

/-! ## The Table layer: descriptors, lookup resolution, validation -/

/-- An `Index` descriptor (`table.py`, class `Index`). -/
structure IndexDesc where
  partitionKey : String
  sortKey : Option String
  indexName : String
  keysOnly : Bool
deriving DecidableEq, Repr

/-- A `Table` descriptor: the constructor arguments of `table.py`'s `Table`
that lookup resolution reads. -/
structure TableDesc where
  tableName : String
  partitionKey : String
  sortKey : Option String
  indexes : List IndexDesc
deriving DecidableEq, Repr

/-- `Table.key_names` (a list) and the set `Table._key_names()` share these
elements. -/
def tableKeyNames (t : TableDesc) : List String :=
  t.partitionKey :: t.sortKey.toList

/-- The key field list of an index (`[index.partition_key, index.sort_key]`
with the `None` dropped). -/
def indexKeyNames (ix : IndexDesc) : List String :=
  ix.partitionKey :: ix.sortKey.toList

/-- Python set equality of two key-name collections. -/
def setEq (a b : List String) : Bool :=
  a.all (fun x => b.contains x) && b.all (fun x => a.contains x)

/-- Python truthiness of a fragment value: `not v` for a literal, always
falsy-free for a `DynamoCondition` object. The notion of a falsy `V` value
(empty string, zero, ...) is a parameter. -/
def kvFalsy (falsy : V → Bool) : KV V → Bool
  | KV.lit v => falsy v
  | KV.between _ _ => false

/-- The result of `Table._determine_lookup`. -/
inductive Lookup (V : Type) where
  | table (tableName : String) (key : Frag V)
  | index (tableName indexName : String) (key : Frag V)
      (sortKey : Option String) (keysOnly : Bool)
deriving DecidableEq

/-- `Table._determine_lookup`. `one_key` is `list(set(key_data.keys()))[0]`,
an arbitrary member of the field set (Python set iteration order); the
embedding fixes the representative to the first fragment field. An empty
fragment raises an IndexError there. -/
def determineLookup (falsy : V → Bool) (t : TableDesc) (frag : Frag V)
    (many : Bool) : Except String (Lookup V) :=
  if frag.any (fun p => kvFalsy falsy p.2) then
    Except.error "Key data cannot have empty values"
  else
    let keys := frag.map (fun p => p.1)
    match keys.head? with
    | none => Except.error "list index out of range"
    | some oneKey =>
      if setEq keys (tableKeyNames t) then
        Except.ok (Lookup.table t.tableName frag)
      else
        match t.indexes.find? (fun ix =>
            setEq keys (indexKeyNames ix) || (oneKey == ix.partitionKey)) with
        | some ix =>
          Except.ok (Lookup.index t.tableName ix.indexName frag ix.sortKey
            ix.keysOnly)
        | none =>
          if keys.length != 1 then
            Except.error "Getting key data, but expecting the table keys"
          else if oneKey == t.partitionKey then
            if !many then
              Except.error "Looking up one value, but missing sort key"
            else Except.ok (Lookup.table t.tableName frag)
          else Except.error "Field not partition key or index"

instance {ε α : Type} [DecidableEq ε] [DecidableEq α] :
    DecidableEq (Except ε α) := fun x y =>
  match x, y with
  | Except.error a, Except.error b =>
    if h : a = b then isTrue (by rw [h]) else isFalse (by simp [h])
  | Except.ok a, Except.ok b =>
    if h : a = b then isTrue (by rw [h]) else isFalse (by simp [h])
  | Except.error _, Except.ok _ => isFalse (by simp)
  | Except.ok _, Except.error _ => isFalse (by simp)

/-- The branch a lookup resolution took, forgetting the values carried:
`none` for a raise, `some none` for a direct table lookup, `some (some ixn)`
for a lookup via the index named `ixn`. -/
def lookupShape : Except String (Lookup V) → Option (Option String)
  | Except.error _ => none
  | Except.ok (Lookup.table _ _) => some none
  | Except.ok (Lookup.index _ ixn _ _ _) => some (some ixn)

/-- A full primary key as handed to `update`/`delete`: plain values only. -/
abbrev PKey (V : Type) := List (String × V)

/-- `Table._validate_key`. -/
def validateKey (falsy : V → Bool) (t : TableDesc) (key : PKey V) :
    Except String Unit :=
  if !setEq (key.map (fun p => p.1)) (tableKeyNames t) then
    Except.error "key fields incorrect"
  else if key.any (fun p => falsy p.2) then
    Except.error "key fields cannot be empty"
  else Except.ok ()

/-! ## The local engine's mutation operations -/

/-- An update entry: a plain overwrite value or the `None` remove marker.
(The `DynamoUpdate` operator objects are not modelled; no claim touches
their arithmetic.) -/
inductive UpdVal (V : Type) where
  | put (v : V)
  | remove
deriving DecidableEq

/-- `record[name] = value` on a record dict. -/
def recSet (r : Rec V) (f : String) (v : V) : Rec V :=
  if r.any (fun p => p.1 == f) then
    r.map (fun p => if p.1 == f then (p.1, v) else p)
  else r ++ [(f, v)]

/-- `del record[name]` guarded by `if name in record`. -/
def recDel (r : Rec V) (f : String) : Rec V :=
  r.filter (fun p => !(p.1 == f))

/-- `LocalStorage._eq_matches`. -/
def eqMatches (key : PKey V) (r : Rec V) : Bool :=
  key.all (fun p => rget r p.1 == (p.2 : WithBot V))

/-- `LocalStorage._find_index`. -/
def findIndexRec (records : List (Rec V)) (key : PKey V) : Option Nat :=
  records.findIdx? (eqMatches key)

/-- Apply `update`'s per-field loop to one record. -/
def applyUpdates (r : Rec V) (updates : List (String × UpdVal V)) : Rec V :=
  updates.foldl (fun r p =>
    match p.2 with
    | UpdVal.put v => recSet r p.1 v
    | UpdVal.remove => recDel r p.1) r

/-- `LocalStorage.update` on one table's record list: returns the post-update
record and the new record list. -/
def localUpdate (records : List (Rec V)) (key : PKey V)
    (updates : List (String × UpdVal V)) : Rec V × List (Rec V) :=
  match findIndexRec records key with
  | some i =>
    let r := applyUpdates (records.getD i []) updates
    (r, records.set i r)
  | none =>
    let base : Rec V := key.map (fun p => (p.1, p.2))
    let r := applyUpdates base updates
    (r, records ++ [r])

/-- `LocalStorage.delete` on one table's record list: the removed record, if
any, and the new record list. -/
def localDelete (records : List (Rec V)) (key : PKey V) :
    Option (Rec V) × List (Rec V) :=
  match findIndexRec records key with
  | some i => (some (records.getD i []), records.eraseIdx i)
  | none => (none, records)

/-! ## Table operations over the local engine, with backend-call traces

Each operation returns its result (`.error` models a raised exception)
together with the list of storage-contract calls it performed, so that
"fails before any backend call" is a provable statement. -/

/-- One storage-contract call. -/
inductive BCall where
  | getItem
  | queryTable
  | queryIndex
  | update
  | delete
deriving DecidableEq, Repr

/-- `Table.get` over the local engine. -/
def tableGet (falsy : V → Bool) (t : TableDesc) (store : List (Rec V))
    (frag : Frag V) : Except String (Option (Rec V)) × List BCall :=
  match determineLookup falsy t frag false with
  | Except.error e => (Except.error e, [])
  | Except.ok (Lookup.table _ key) =>
    match localGetItem store key with
    | none => (Except.error "query raised", [BCall.getItem])
    | some r => (Except.ok r, [BCall.getItem])
  | Except.ok (Lookup.index _ _ key sk ko) =>
    match localQueryIndex store key sk false (some 1) none ko
        (tableKeyNames t) with
    | none => (Except.error "query raised", [BCall.queryIndex])
    | some (rs, _) => (Except.ok rs.head?, [BCall.queryIndex])

/-- `Table.get_many` over the local engine (the pagination token is passed in
decoded form; the string codec is `encodePageToken`/`decodePageToken`). -/
def tableGetMany (falsy : V → Bool) (t : TableDesc) (store : List (Rec V))
    (frag : Frag V) (reverse : Bool) (limit : Option Nat)
    (tok : Option (PosKey V)) :
    Except String (List (Rec V) × Option (PosKey V)) × List BCall :=
  match determineLookup falsy t frag true with
  | Except.error e => (Except.error e, [])
  | Except.ok (Lookup.table _ key) =>
    match localQuery store key t.sortKey reverse limit tok with
    | none => (Except.error "query raised", [BCall.queryTable])
    | some out => (Except.ok out, [BCall.queryTable])
  | Except.ok (Lookup.index _ _ key sk ko) =>
    match localQueryIndex store key sk reverse limit tok ko
        (tableKeyNames t) with
    | none => (Except.error "query raised", [BCall.queryIndex])
    | some out => (Except.ok out, [BCall.queryIndex])

/-- `Table.update` over the local engine. -/
def tableUpdate (falsy : V → Bool) (t : TableDesc) (store : List (Rec V))
    (key : PKey V) (updates : List (String × UpdVal V)) :
    Except String (Rec V × List (Rec V)) × List BCall :=
  match validateKey falsy t key with
  | Except.error e => (Except.error e, [])
  | Except.ok _ => (Except.ok (localUpdate store key updates), [BCall.update])

/-- `Table.delete` over the local engine. -/
def tableDelete (falsy : V → Bool) (t : TableDesc) (store : List (Rec V))
    (key : PKey V) :
    Except String (Option (Rec V) × List (Rec V)) × List BCall :=
  match validateKey falsy t key with
  | Except.error e => (Except.error e, [])
  | Except.ok _ => (Except.ok (localDelete store key), [BCall.delete])

/-- Whether an `Except` is a raise. -/
def isErr {ε α : Type} : Except ε α → Bool
  | Except.error _ => true
  | Except.ok _ => false

/-! ## Repeated pagination at the storage layer -/

/-- Issue `LocalStorage.query` repeatedly, feeding each returned next-page
token into the next call until the token is `none`, concatenating the pages.
`fuel` bounds the number of calls; `none` means fuel ran out or a call
raised. -/
def collectPages (records : List (Rec V)) (frag : Frag V)
    (sortKey : Option String) (reverse : Bool) (limit : Option Nat) :
    Nat → Option (PosKey V) → Option (List (Rec V))
  | 0, _ => none
  | fuel + 1, tok =>
    match localQuery records frag sortKey reverse limit tok with
    | none => none
    | some (page, none) => some page
    | some (page, some k) =>
      (collectPages records frag sortKey reverse limit fuel (some k)).map
        (fun rest => page ++ rest)

/-! ## The query cursor (`cursor.py`)

The cursor is modelled as an explicit state machine over an arbitrary
deterministic page-fetch function `f : Option τ → ResPage R τ`
(`_do_fetch` reading `self.pagination_token`). Each state also carries the
list of tokens passed to the fetch function so far, so that fetch-count
properties are provable. The external resumption token
`f'{pagination_token or ""}@{i}'` is modelled in decoded form as the pair
(backend token or `none`, consumed count); the `'@'`-join and split are a
bijection for `'@'`-free backend tokens and are not re-modelled. An empty
page token (falsy in Python) is identified with `none`. -/

/-- A `ResultPage`: records plus the backend's next-page token. -/
structure ResPage (R τ : Type) where
  records : List R
  nextTok : Option τ
deriving DecidableEq, Repr

/-- The cursor state: `self.page`, `self.i`, `self.have_eof`,
`self.pagination_token`, plus the fetch trace. `have_eof` is `None` until the
first fetch (Python truthiness: `none` and `some false` are both falsy). -/
structure CursorSt (R τ : Type) where
  page : Option (ResPage R τ)
  i : Nat
  haveEof : Option Bool
  pagTok : Option τ
  fetched : List (Option τ)
deriving DecidableEq, Repr

variable {R τ : Type}

/-- Python truthiness of `self.have_eof`. -/
def haveEofT (s : CursorSt R τ) : Bool := s.haveEof.getD false

/-- `QueryCursor._fetch_next_page`. -/
def fetchNextPage (f : Option τ → ResPage R τ) (s : CursorSt R τ) :
    CursorSt R τ :=
  let pg := f s.pagTok
  { s with
    i := 0
    page := some pg
    haveEof := some (pg.records.isEmpty)
    fetched := s.fetched ++ [s.pagTok] }

/-- The `eof` property: the boolean answer and the state after the (possibly
fetching) access. -/
def eofCheck (f : Option τ → ResPage R τ) (s : CursorSt R τ) :
    Bool × CursorSt R τ :=
  if haveEofT s then (true, s)
  else
    let s' := if s.page.isNone then fetchNextPage f s else s
    match s'.page with
    | some pg => (decide (pg.records.length ≤ s'.i) && pg.nextTok.isNone, s')
    | none => (true, s')

/-- `QueryCursor.advance`. (The `if self.pagination_token is None` branch
inside is dead: the token was just tested truthy.) -/
def cadvance (f : Option τ → ResPage R τ) (s : CursorSt R τ) : CursorSt R τ :=
  match s.page with
  | none => fetchNextPage f s
  | some pg =>
    let i' := s.i + 1
    if decide (pg.records.length ≤ i') && pg.nextTok.isSome then
      { s with i := i', pagTok := pg.nextTok, page := none }
    else { s with i := i' }

/-- The `current` property: the element (or `none` for the raise at eof) and
the state after the access. -/
def currentGet (f : Option τ → ResPage R τ) (s : CursorSt R τ) :
    Option R × CursorSt R τ :=
  let s1 := if s.page.isNone then fetchNextPage f s else s
  let (e, s2) := eofCheck f s1
  if e then (none, s2)
  else
    match s2.page with
    | some pg => (pg.records.get? s2.i, s2)
    | none => (none, s2)

/-- A decoded external resumption token: backend token part and count. -/
abbrev ExtTok (τ : Type) := Option τ × Nat

/-- `QueryCursor._analyze_pagination_token`, decoded form. -/
def analyzeTok : Option (ExtTok τ) → Option τ × Nat
  | none => (none, 0)
  | some (t, n) => (t, n)

/-- The constructor's record-eating loop
(`while not self.eof and i < drop_initial: self.advance()`); the condition is
evaluated left to right, so `eof` is probed (and may fetch) even when
nothing is to be dropped. -/
def dropLoop (f : Option τ → ResPage R τ) : Nat → CursorSt R τ → CursorSt R τ
  | 0, s => (eofCheck f s).2
  | n + 1, s =>
    let (e, s') := eofCheck f s
    if e then s' else dropLoop f n (cadvance f s')

/-- `QueryCursor.__init__`. -/
def cinit (f : Option τ → ResPage R τ) (ext : Option (ExtTok τ)) :
    CursorSt R τ :=
  let a := analyzeTok ext
  dropLoop f a.2
    { page := none, i := 0, haveEof := none, pagTok := a.1, fetched := [] }

/-- The `next_page_token` property: the emitted external token (decoded) and
the state after the access. -/
def nextPageToken (f : Option τ → ResPage R τ) (s : CursorSt R τ) :
    Option (ExtTok τ) × CursorSt R τ :=
  let (e, s') := eofCheck f s
  if e then (none, s') else (some (s'.pagTok, s'.i), s')

/-- One `__next__` of `PythonQueryIterator`: `none` at eof (StopIteration). -/
def cstep (f : Option τ → ResPage R τ) (s : CursorSt R τ) :
    Option R × CursorSt R τ :=
  let (e, s1) := eofCheck f s
  if e then (none, s1)
  else
    let (r, s2) := currentGet f s1
    (r, cadvance f s2)

/-- Iterate the cursor to completion (`fuel` bounds the step count). -/
def ccollect (f : Option τ → ResPage R τ) :
    Nat → CursorSt R τ → List R × CursorSt R τ
  | 0, s => ([], s)
  | n + 1, s =>
    match cstep f s with
    | (none, s') => ([], s')
    | (some r, s') =>
      let out := ccollect f n s'
      (r :: out.1, out.2)

/-- Consume `k` elements through the iterator protocol. -/
def cconsume (f : Option τ → ResPage R τ) :
    Nat → CursorSt R τ → CursorSt R τ
  | 0, s => s
  | n + 1, s => cconsume f n (cstep f s).2

/-- A deterministic finite page chain: page `j` holds `pages[j]` and points
to page `j+1` (token `some (j+1)`) unless it is the last page. Token `none`
(the initial fetch) fetches page `0`. -/
def pageData (pages : List (List R)) (j : Nat) : ResPage R Nat :=
  { records := pages.getD j []
    nextTok := if j + 1 < pages.length then some (j + 1) else none }

/-- The fetch function of the page chain. -/
def chainFetch (pages : List (List R)) : Option Nat → ResPage R Nat
  | none => pageData pages 0
  | some j => pageData pages j

/-- A cursor access, for quantifying over arbitrary access sequences. -/
inductive COp where
  | opEof
  | opAdvance
  | opCurrent
  | opNextTok
deriving DecidableEq, Repr

/-- Run one access against the cursor state. -/
def runOp (f : Option τ → ResPage R τ) : COp → CursorSt R τ → CursorSt R τ
  | COp.opEof, s => (eofCheck f s).2
  | COp.opAdvance, s => cadvance f s
  | COp.opCurrent, s => (currentGet f s).2
  | COp.opNextTok, s => (nextPageToken f s).2

/-- Run a sequence of accesses. -/
def runOps (f : Option τ → ResPage R τ) (ops : List COp) (s : CursorSt R τ) :
    CursorSt R τ :=
  ops.foldl (fun s op => runOp f op s) s

/-! ## The Table-level page-token codec (`encode_page_token`/`decode_page_token`)

`encode_page_token(x)` is `base64.urlsafe_b64encode(json.dumps(x).encode())`
and `decode_page_token` its inverse. The position-token values are flat
string-keyed objects whose values are strings or integers. The stdlib
`json.dumps`/`json.loads` (with its default `ensure_ascii=True` escaping,
`', '`/`': '` separators and surrogate-pair `\uXXXX` escapes) and the
url-safe base64 codec are external library code; they are modelled here
character-by-character, restricted on the parsing side to the grammar the
serializer emits. -/

/-- A JSON value occurring in a position token: a string or an integer. -/
inductive JVal where
  | jstr (s : String)
  | jnum (n : Int)
deriving DecidableEq, Repr

/-- A decoded Table-level page token: a flat JSON object (position key). -/
abbrev JObj := List (String × JVal)

/-- `Char.ofNat 123` / `125`: the object braces. -/
def lbraceC : Char := Char.ofNat 123

/-- See `lbraceC`. -/
def rbraceC : Char := Char.ofNat 125

/-- The url-safe base64 alphabet. -/
def b64Char (n : Nat) : Char :=
  if n < 26 then Char.ofNat (65 + n)
  else if n < 52 then Char.ofNat (97 + (n - 26))
  else if n < 62 then Char.ofNat (48 + (n - 52))
  else if n = 62 then '-'
  else '_'

/-- Inverse of `b64Char`. -/
def b64Dig (c : Char) : Option Nat :=
  let n := c.toNat
  if 65 ≤ n && n ≤ 90 then some (n - 65)
  else if 97 ≤ n && n ≤ 122 then some (26 + (n - 97))
  else if 48 ≤ n && n ≤ 57 then some (52 + (n - 48))
  else if c = '-' then some 62
  else if c = '_' then some 63
  else none

/-- Base64-encode a byte list (bytes as `Nat < 256`), with `=` padding. -/
def b64encodeBytes : List Nat → List Char
  | [] => []
  | [b1] => [b64Char (b1 / 4), b64Char (b1 % 4 * 16), '=', '=']
  | [b1, b2] =>
    [b64Char (b1 / 4), b64Char (b1 % 4 * 16 + b2 / 16), b64Char (b2 % 16 * 4),
     '=']
  | b1 :: b2 :: b3 :: rest =>
    b64Char (b1 / 4) :: b64Char (b1 % 4 * 16 + b2 / 16) ::
    b64Char (b2 % 16 * 4 + b3 / 64) :: b64Char (b3 % 64) ::
    b64encodeBytes rest

/-- Decode a final base64 quad, honouring `=` padding. -/
def b64quad (c1 c2 c3 c4 : Char) : Option (List Nat) :=
  if c3 = '=' then
    if c4 = '=' then do
      let s1 ← b64Dig c1
      let s2 ← b64Dig c2
      pure [s1 * 4 + s2 / 16]
    else none
  else if c4 = '=' then do
    let s1 ← b64Dig c1
    let s2 ← b64Dig c2
    let s3 ← b64Dig c3
    pure [s1 * 4 + s2 / 16, s2 % 16 * 16 + s3 / 4]
  else do
    let s1 ← b64Dig c1
    let s2 ← b64Dig c2
    let s3 ← b64Dig c3
    let s4 ← b64Dig c4
    pure [s1 * 4 + s2 / 16, s2 % 16 * 16 + s3 / 4, s3 % 4 * 64 + s4]

/-- Base64-decode; `none` is a decoding error. -/
def b64decodeChars : List Char → Option (List Nat)
  | [] => some []
  | c1 :: c2 :: c3 :: c4 :: rest =>
    if rest.isEmpty then b64quad c1 c2 c3 c4
    else do
      let s1 ← b64Dig c1
      let s2 ← b64Dig c2
      let s3 ← b64Dig c3
      let s4 ← b64Dig c4
      let bs ← b64decodeChars rest
      pure ((s1 * 4 + s2 / 16) :: (s2 % 16 * 16 + s3 / 4) ::
        (s3 % 4 * 64 + s4) :: bs)
  | _ => none

/-- Lower-case hex digit. -/
def hexChar (n : Nat) : Char :=
  if n < 10 then Char.ofNat (48 + n) else Char.ofNat (87 + n)

/-- Hex digit value (json.loads accepts both cases). -/
def hexVal (c : Char) : Option Nat :=
  let n := c.toNat
  if 48 ≤ n && n ≤ 57 then some (n - 48)
  else if 97 ≤ n && n ≤ 102 then some (n - 87)
  else if 65 ≤ n && n ≤ 70 then some (n - 55)
  else none

/-- Four hex digits. -/
def hex4 (a b c d : Char) : Option Nat := do
  let x ← hexVal a
  let y ← hexVal b
  let z ← hexVal c
  let w ← hexVal d
  pure (x * 4096 + y * 256 + z * 16 + w)

/-- A `\uXXXX` escape for a code unit `n < 0x10000`. -/
def uEsc (n : Nat) : List Char :=
  ['\\', 'u', hexChar (n / 4096 % 16), hexChar (n / 256 % 16),
   hexChar (n / 16 % 16), hexChar (n % 16)]

/-- `json.dumps` escaping of one character (`ensure_ascii=True`): raw for
printable ASCII, two-character escapes for the common controls, `\uXXXX`
otherwise, as a surrogate pair beyond the BMP. -/
def escChar (c : Char) : List Char :=
  let n := c.toNat
  if c = '"' then ['\\', '"']
  else if c = '\\' then ['\\', '\\']
  else if n = 8 then ['\\', 'b']
  else if n = 9 then ['\\', 't']
  else if n = 10 then ['\\', 'n']
  else if n = 12 then ['\\', 'f']
  else if n = 13 then ['\\', 'r']
  else if n < 32 then uEsc n
  else if n < 127 then [c]
  else if n < 65536 then uEsc n
  else uEsc (55296 + (n - 65536) / 1024) ++ uEsc (56320 + (n - 65536) % 1024)

/-- Serialize a JSON string (with quotes). -/
def dumpStr (s : List Char) : List Char :=
  '"' :: s.flatMap escChar ++ ['"']

/-- Decimal digits of `n`, most significant first (`fuel ≥ n + 1`). -/
def natDigitsAux : Nat → Nat → List Char
  | 0, _ => []
  | fuel + 1, n =>
    if n < 10 then [Char.ofNat (48 + n)]
    else natDigitsAux fuel (n / 10) ++ [Char.ofNat (48 + n % 10)]

/-- Decimal digits of `n`. -/
def natDigits (n : Nat) : List Char := natDigitsAux (n + 1) n

/-- Serialize an integer. -/
def dumpInt (i : Int) : List Char :=
  if i < 0 then '-' :: natDigits (-i).toNat else natDigits i.toNat

/-- ASCII decimal digit test. -/
def isDig (c : Char) : Bool := 48 ≤ c.toNat && c.toNat ≤ 57

/-- Consume leading digits, accumulating their value. -/
def parseDigits : List Char → Nat → Nat × List Char
  | [], acc => (acc, [])
  | c :: rest, acc =>
    if isDig c then parseDigits rest (acc * 10 + (c.toNat - 48))
    else (acc, c :: rest)

/-- Parse an integer (requires a leading digit after the optional sign). -/
def parseIntChars : List Char → Option (Int × List Char)
  | [] => none
  | c :: rest =>
    if c = '-' then
      match rest with
      | [] => none
      | d :: _ =>
        if isDig d then
          let p := parseDigits rest 0
          some (-(p.1 : Int), p.2)
        else none
    else if isDig c then
      let p := parseDigits (c :: rest) 0
      some ((p.1 : Int), p.2)
    else none

/-- Decode one escape sequence after the backslash (`json.loads`), returning
the character and the remaining input; surrogate pairs are recombined. -/
def parseEscape (e : Char) (r : List Char) : Option (Char × List Char) :=
  if e = '"' then some ('"', r)
  else if e = '\\' then some ('\\', r)
  else if e = 'b' then some (Char.ofNat 8, r)
  else if e = 't' then some (Char.ofNat 9, r)
  else if e = 'n' then some (Char.ofNat 10, r)
  else if e = 'f' then some (Char.ofNat 12, r)
  else if e = 'r' then some (Char.ofNat 13, r)
  else if e = 'u' then
    match r with
    | h1 :: h2 :: h3 :: h4 :: r2 =>
      match hex4 h1 h2 h3 h4 with
      | none => none
      | some n =>
        if 55296 ≤ n && n ≤ 56319 then
          match r2 with
          | b :: u :: g1 :: g2 :: g3 :: g4 :: r3 =>
            if b = '\\' && u = 'u' then
              match hex4 g1 g2 g3 g4 with
              | none => none
              | some m =>
                if 56320 ≤ m && m ≤ 57343 then
                  some (Char.ofNat (65536 + (n - 55296) * 1024 +
                    (m - 56320)), r3)
                else none
            else none
          | _ => none
        else if 56320 ≤ n && n ≤ 57343 then none
        else some (Char.ofNat n, r2)
    | _ => none
  else none

/-- Consume one string element: `none` content marks the closing quote. -/
def parseStrStep : List Char → Option (Option Char × List Char)
  | [] => none
  | c :: rest =>
    if c = '"' then some (none, rest)
    else if c = '\\' then
      match rest with
      | [] => none
      | e :: r => (parseEscape e r).map (fun p => (some p.1, p.2))
    else some (some c, rest)

/-- Iterate `parseStrStep` up to the closing quote (`fuel` bounds the
number of elements; each step consumes at least one character). -/
def parseStrLoop : Nat → List Char → Option (List Char × List Char)
  | 0, _ => none
  | fuel + 1, l =>
    match parseStrStep l with
    | none => none
    | some (none, rest) => some ([], rest)
    | some (some ch, rest) =>
      (parseStrLoop fuel rest).map (fun p => (ch :: p.1, p.2))

/-- Parse a JSON string body after the opening quote, un-escaping, up to
the closing quote; returns the contents and the remaining input. -/
def parseStrChars (l : List Char) : Option (List Char × List Char) :=
  parseStrLoop l.length l

/-- Serialize one JSON value. -/
def dumpJVal : JVal → List Char
  | JVal.jstr s => dumpStr s.data
  | JVal.jnum i => dumpInt i

/-- Parse one JSON value (string or integer). -/
def parseJVal (l : List Char) : Option (JVal × List Char) :=
  match l with
  | c :: rest =>
    if c = '"' then
      (parseStrChars rest).map (fun p => (JVal.jstr (String.mk p.1), p.2))
    else (parseIntChars l).map (fun p => (JVal.jnum p.1, p.2))
  | [] => none

/-- Serialize the entries of an object with json.dumps' default
`', '` / `': '` separators. -/
def dumpEntries : JObj → List Char
  | [] => []
  | [p] => dumpStr p.1.data ++ ':' :: ' ' :: dumpJVal p.2
  | p :: rest =>
    dumpStr p.1.data ++ ':' :: ' ' :: dumpJVal p.2 ++ ',' :: ' ' ::
      dumpEntries rest

/-- `json.dumps` of a flat object. -/
def dumpObj (o : JObj) : List Char :=
  lbraceC :: dumpEntries o ++ [rbraceC]

/-- Parse one `"key": value` entry. -/
def parseEntry (l : List Char) : Option ((String × JVal) × List Char) :=
  match l with
  | c :: rest =>
    if c = '"' then
      match parseStrChars rest with
      | none => none
      | some (k, r1) =>
        match r1 with
        | c1 :: c2 :: r2 =>
          if c1 = ':' && c2 = ' ' then
            (parseJVal r2).map (fun p => ((String.mk k, p.1), p.2))
          else none
        | _ => none
    else none
  | [] => none

/-- Parse the entries of a non-empty object up to and including the closing
brace (`fuel` bounds the entry count). -/
def parseEntries : Nat → List Char → Option (JObj × List Char)
  | 0, _ => none
  | fuel + 1, l =>
    match parseEntry l with
    | none => none
    | some (kv, r3) =>
      match r3 with
      | d1 :: d2 :: r4 =>
        if d1 = ',' && d2 = ' ' then
          (parseEntries fuel r4).map (fun p => (kv :: p.1, p.2))
        else if d1 = rbraceC then some ([kv], d2 :: r4)
        else none
      | [d1] => if d1 = rbraceC then some ([kv], []) else none
      | [] => none

/-- `json.loads` restricted to the grammar `dumpObj` emits. -/
def parseObj (l : List Char) : Option (JObj × List Char) :=
  match l with
  | c :: rest =>
    if c = lbraceC then
      match rest with
      | c2 :: rest2 =>
        if c2 = rbraceC then some ([], rest2)
        else parseEntries rest.length rest
      | [] => none
    else none
  | [] => none

/-- The UTF-8 bytes of `json.dumps x` (pure ASCII under `ensure_ascii`). -/
def dumpTokenBytes (o : JObj) : List Nat := (dumpObj o).map Char.toNat

/-- `encode_page_token`. -/
def encodePageToken : Option JObj → Option String
  | none => none
  | some o => some (String.mk (b64encodeBytes (dumpTokenBytes o)))

/-- `decode_page_token`; the outer `none` is a raise. -/
def decodePageToken : Option String → Option (Option JObj)
  | none => some none
  | some s => do
    let bs ← b64decodeChars s.data
    let po ← parseObj (bs.map Char.ofNat)
    if po.2.isEmpty then pure (some po.1) else none

/-! ## Heap model of the local engine (for the aliasing claim)

Python dicts are heap objects. `LocalStorage.query` ends in
`return copy.copy([record for _, record in with_keys]), ...`: `copy.copy` on
a list duplicates only the outer list, so the returned list's elements are
the stored record objects themselves. To make that observable, this model
gives every record an address in a heap; the engine's table is a list of
addresses. Only the slice of behaviour the aliasing scenario needs is
modelled (equality filtering; no sort key, limit or token). -/

/-- The local engine with records as heap objects. -/
structure HeapDB (V : Type) where
  heap : List (Rec V)
  table : List Nat
deriving Repr

/-- The record objects currently in the table, in order. -/
def hrecords (db : HeapDB V) : List (Rec V) :=
  db.table.map (fun a => db.heap.getD a [])

/-- `LocalStorage.put`: both branches store `copy.copy(data)` — a fresh
object. -/
def hput (db : HeapDB V) (key : PKey V) (data : Rec V) : HeapDB V :=
  match findIndexRec (hrecords db) key with
  | none =>
    { heap := db.heap ++ [data], table := db.table ++ [db.heap.length] }
  | some i =>
    { heap := db.heap ++ [data], table := db.table.set i db.heap.length }

/-- The list returned by `LocalStorage.query` in the heap model (no sort key,
limit or token): the addresses of the matching stored records — the final
list `copy.copy` does not copy the records. -/
def hqueryRefs (db : HeapDB V) (frag : Frag V) : List Nat :=
  db.table.filter (fun a => queryMatches frag (db.heap.getD a []))

/-- Read a returned reference. -/
def hread (db : HeapDB V) (a : Nat) : Rec V := db.heap.getD a []

/-- A caller mutating a record object it was handed (`rec[f] = v`). -/
def heapWrite (db : HeapDB V) (a : Nat) (f : String) (v : V) : HeapDB V :=
  { db with heap := db.heap.set a (recSet (db.heap.getD a []) f v) }

/-! ## Canonical cursor states over a page chain (verification auxiliaries) -/

/-- The token that fetches page `j` of a chain: `none` for page 0 (the
initial fetch), `some j` afterwards. -/
def tokOf (j : Nat) : Option Nat := if j = 0 then none else some j

/-- The cursor state with page `j` loaded at in-page index `i`, with fetch
trace `F`. -/
def loadedSt (pages : List (List R)) (j i : Nat) (F : List (Option Nat)) :
    CursorSt R Nat :=
  { page := some (pageData pages j), i := i, haveEof := some false,
    pagTok := tokOf j, fetched := F }

/-- A cursor state about to fetch page `j` (no page cached): freshly
constructed (`he = none`) or right after crossing a page boundary
(`he = some false`); `i` is the stale in-page index. -/
def pendingSt (j i : Nat) (he : Option Bool) (F : List (Option Nat)) :
    CursorSt R Nat :=
  { page := none, i := i, haveEof := he, pagTok := tokOf j, fetched := F }

/-- The records remaining from in-page position `i` of page `j` onwards. -/
def tailFrom (pages : List (List R)) (j i : Nat) : List R :=
  (pages.getD j []).drop i ++ (pages.drop (j + 1)).flatten

/-- The page index a chain token points at. -/
def tokIdx : Option Nat → Nat
  | none => 0
  | some j => j

/-- The fetch-trace invariant over a page chain: tokens are fetched in
strictly increasing page order, and the cursor's pagination token is never
behind a fetched one — so no token can ever be fetched twice. -/
def FetchInv (pages : List (List R)) (s : CursorSt R Nat) : Prop :=
  s.fetched.Pairwise (fun a b => tokIdx a < tokIdx b) ∧
  ((s.page = none ∧ ∀ t' ∈ s.fetched, tokIdx t' < tokIdx s.pagTok) ∨
   (s.page = some (chainFetch pages s.pagTok) ∧
    ∃ F0, s.fetched = F0 ++ [s.pagTok] ∧
      ∀ t' ∈ F0, tokIdx t' < tokIdx s.pagTok))

/-! # Theorems -/

/-- C1, counterexample: on a table holding two records with the same
partition and sort values (as an index with non-unique keys produces),
querying with `limit 1` and following the next-page tokens loses the second
record: the concatenation of all pages is `[r1]` while the single
unpaginated query returns `[r1, r2]` — the position of the token is compared
`before_or_equal`, which also drops the distinct record sharing the token's
(partition, sort) pair. -/
theorem c1_pagination_concat_counterexample :
    collectPages
        [[("p", 1), ("s", 5), ("id", 1)], [("p", 1), ("s", 5), ("id", (2 : Nat))]]
        [("p", KV.lit 1)] (some "s") false (some 1) 3 none
      = some [[("p", 1), ("s", 5), ("id", 1)]]
  ∧ (localQuery
        [[("p", 1), ("s", 5), ("id", 1)], [("p", 1), ("s", 5), ("id", (2 : Nat))]]
        [("p", KV.lit 1)] (some "s") false none none).map (fun p => p.1)
      = some [[("p", 1), ("s", 5), ("id", 1)], [("p", 1), ("s", 5), ("id", 2)]]
  ∧ some [[("p", 1), ("s", 5), ("id", (1 : Nat))]]
      ≠ some [[("p", 1), ("s", 5), ("id", 1)], [("p", 1), ("s", 5), ("id", 2)]] := by
  decide

/-- C2, counterexample: with a table keyed on `p` and one declared index on
`a`, the two-field fragment `{a, b}` (all values non-empty) resolves to an
index lookup on `a-index`, even though its field set neither equals the
index's key field set nor is a single field: `one_key` is an arbitrary
member of the field set, not "the single field present". -/
theorem c2_lookup_resolution_counterexample :
    determineLookup (fun n => n == 0)
        (TableDesc.mk "t" "p" none [IndexDesc.mk "a" none "a-index" false])
        [("a", KV.lit (1 : Nat)), ("b", KV.lit 2)] true
      = Except.ok (Lookup.index "t" "a-index"
          [("a", KV.lit 1), ("b", KV.lit 2)] none false)
  ∧ setEq ["a", "b"] (indexKeyNames (IndexDesc.mk "a" none "a-index" false))
      = false
  ∧ [("a", KV.lit (1 : Nat)), ("b", KV.lit 2)].length ≠ 1
  ∧ (∀ p ∈ [("a", KV.lit (1 : Nat)), ("b", KV.lit 2)],
      kvFalsy (fun n => n == 0) p.2 = false) := by
  decide

/-- C3, counterexample: at split point `k = N` (here one page of one record,
`k = 1`), the token captured after consuming everything is `none`, and a
cursor constructed from a `none` token restarts from the beginning: it
yields the full sequence `[5]` instead of the remaining `N - k = 0`
records. -/
theorem c3_cursor_resume_counterexample :
    (nextPageToken (chainFetch [[(5 : Nat)]])
        (cconsume (chainFetch [[5]]) 1 (cinit (chainFetch [[5]]) none))).1 = none
  ∧ (ccollect (chainFetch [[(5 : Nat)]]) 2
        (cinit (chainFetch [[5]])
          (nextPageToken (chainFetch [[5]])
            (cconsume (chainFetch [[5]]) 1 (cinit (chainFetch [[5]]) none))).1)).1
      = [5]
  ∧ ([5] : List Nat) ≠ List.drop 1 [5] := by
  decide

/-- C4, counterexample: constructing a cursor does perform a fetch — the
constructor's record-eating loop evaluates `not self.eof` before comparing
the drop counter, and the `eof` probe fetches the first page; after
`QueryCursor(pagination_token=None)` the fetch trace is already `[none]`,
not `[]`. -/
theorem c4_lazy_fetch_counterexample :
    (cinit (chainFetch [[(5 : Nat)], [6]]) none).fetched = [none]
  ∧ (cinit (chainFetch [[(5 : Nat)], [6]]) none).fetched ≠ [] := by
  decide

/-- C5: the cursor stops on an empty page even when that page carries a
non-none next-page token. Here page 0 is empty with next-page token
`some 1` and page 1 holds one record, yet `eof` answers `true` right after
construction and iteration yields nothing: `_fetch_next_page` sets
`have_eof` as soon as a fetched page is empty, overriding the
"none token is the sole end-of-data signal" contract of `ResultPage`. -/
theorem c5_empty_page_eof_evaluation :
    (chainFetch ([[], [7]] : List (List Nat)) none).records = []
  ∧ (chainFetch ([[], [7]] : List (List Nat)) none).nextTok = some 1
  ∧ (eofCheck (chainFetch ([[], [7]] : List (List Nat)))
      (cinit (chainFetch [[], [7]]) none)).1 = true
  ∧ (ccollect (chainFetch ([[], [7]] : List (List Nat))) 5
      (cinit (chainFetch [[], [7]]) none)).1 = [] := by
  decide

/-- C9: the list returned by the local engine's `query` holds the stored
record objects themselves (`copy.copy` duplicates only the outer list), so a
caller mutating a returned record changes the engine's stored state and what
later reads return: after `put {id:1, v:1}`, the query result is the stored
object's address `0`; writing `v := 99` through it makes the stored table
and every later read report `v = 99`. -/
theorem c9_query_returns_live_references :
    (let db1 : HeapDB Nat :=
      hput (HeapDB.mk [] []) [("id", 1)] [("id", 1), ("v", 1)]
    let db2 := heapWrite db1 0 "v" 99
    hqueryRefs db1 [("id", KV.lit 1)] = [0]
    ∧ hrecords db1 = [[("id", 1), ("v", 1)]]
    ∧ hrecords db2 = [[("id", 1), ("v", 99)]]
    ∧ (hqueryRefs db2 [("id", KV.lit 1)]).map (hread db2)
        = [[("id", 1), ("v", 99)]]) := by
  decide

/-! ## Validation-layer results (C8) -/

/-- C8: every Table operation taking a key fragment — `get`, `get_many`,
`update`, `delete` — fails synchronously whenever the fragment contains an
empty/falsy value, with an empty backend-call trace: the raise happens in
`_determine_lookup`/`_validate_key` before any storage call, surfaces to the
caller as the operation's result, and no retry path exists. -/
theorem c8_empty_key_value_fails_before_backend (falsy : V → Bool)
    (t : TableDesc) (store : List (Rec V)) (frag : Frag V) (key : PKey V)
    (updates : List (String × UpdVal V)) (reverse : Bool) (limit : Option Nat)
    (tok : Option (PosKey V))
    (hfrag : frag.any (fun p => kvFalsy falsy p.2) = true)
    (hkey : key.any (fun p => falsy p.2) = true) :
    (isErr (tableGet falsy t store frag).1 = true
      ∧ (tableGet falsy t store frag).2 = [])
  ∧ (isErr (tableGetMany falsy t store frag reverse limit tok).1 = true
      ∧ (tableGetMany falsy t store frag reverse limit tok).2 = [])
  ∧ (isErr (tableUpdate falsy t store key updates).1 = true
      ∧ (tableUpdate falsy t store key updates).2 = [])
  ∧ (isErr (tableDelete falsy t store key).1 = true
      ∧ (tableDelete falsy t store key).2 = []) := by
  have h1 : ∀ many, determineLookup falsy t frag many
      = Except.error "Key data cannot have empty values" := by
    intro many
    unfold determineLookup
    simp [hfrag]
  have h2 : isErr (validateKey falsy t key) = true := by
    unfold validateKey
    by_cases hse : setEq (key.map (fun p => p.1)) (tableKeyNames t) = true
    · simp [hse, hkey, isErr]
    · simp [Bool.not_eq_true] at hse
      simp [hse, isErr]
  have h2e : ∃ e, validateKey falsy t key = Except.error e := by
    cases h : validateKey falsy t key with
    | error e => exact ⟨e, rfl⟩
    | ok u => rw [h] at h2; simp [isErr] at h2
  obtain ⟨e, he⟩ := h2e
  refine ⟨?_, ?_, ?_, ?_⟩
  · simp [tableGet, h1, isErr]
  · simp [tableGetMany, h1, isErr]
  · simp [tableUpdate, he, isErr]
  · simp [tableDelete, he, isErr]

/-- C8, witness: the concrete table `(p, s)` with the empty-string value in
the fragment/key (Python falsiness of `""`). -/
theorem c8_empty_key_value_fails_before_backend_witness :
    (isErr (tableGet (fun v => v == "") (TableDesc.mk "t" "p" (some "s") [])
        [] [("p", KV.lit "")]).1 = true
      ∧ (tableGet (fun v => v == "") (TableDesc.mk "t" "p" (some "s") [])
        [] [("p", KV.lit "")]).2 = [])
  ∧ (isErr (tableGetMany (fun v => v == "") (TableDesc.mk "t" "p" (some "s") [])
        [] [("p", KV.lit "")] false none none).1 = true
      ∧ (tableGetMany (fun v => v == "") (TableDesc.mk "t" "p" (some "s") [])
        [] [("p", KV.lit "")] false none none).2 = [])
  ∧ (isErr (tableUpdate (fun v => v == "") (TableDesc.mk "t" "p" (some "s") [])
        [] [("p", ""), ("s", "x")] []).1 = true
      ∧ (tableUpdate (fun v => v == "") (TableDesc.mk "t" "p" (some "s") [])
        [] [("p", ""), ("s", "x")] []).2 = [])
  ∧ (isErr (tableDelete (fun v => v == "") (TableDesc.mk "t" "p" (some "s") [])
        [] [("p", ""), ("s", "x")]).1 = true
      ∧ (tableDelete (fun v => v == "") (TableDesc.mk "t" "p" (some "s") [])
        [] [("p", ""), ("s", "x")]).2 = []) :=
  c8_empty_key_value_fails_before_backend (fun v => v == "")
    (TableDesc.mk "t" "p" (some "s") []) [] [("p", KV.lit "")]
    [("p", ""), ("s", "x")] [] false none none (by decide) (by decide)

/-! ## Query-pipeline helper lemmas -/

theorem withKeys_map_snd (records : List (Rec V)) (frag : Frag V)
    (sortKey : Option String) (reverse : Bool) :
    (withKeys records frag sortKey reverse).map (fun p => p.2)
      = orderedRecords records frag sortKey reverse := by
  unfold withKeys
  rw [List.map_map]
  exact List.enum_map_snd _

theorem head?_take {α : Type} (l : List α) (n : Nat) :
    (l.take (n + 1)).head? = l.head? := by
  cases l <;> rfl

theorem localQuery_head (records : List (Rec V)) (frag : Frag V)
    (sortKey : Option String) (reverse : Bool) (limit : Option Nat)
    (hval : validateOnlySortKey (specConds frag) sortKey = true)
    (hsort : sortOk records frag sortKey = true) :
    ∃ rs nt, localQuery records frag sortKey reverse limit none = some (rs, nt)
      ∧ rs.head? = (orderedRecords records frag sortKey reverse).head? := by
  unfold localQuery
  simp only [hval, hsort, Bool.not_true, Bool.false_eq_true, if_false]
  rw [show afterTok records frag sortKey reverse none
    = some (withKeys records frag sortKey reverse) from rfl]
  match limit with
  | none =>
    exact ⟨_, _, rfl, by rw [withKeys_map_snd]⟩
  | some 0 =>
    exact ⟨_, _, rfl, by rw [withKeys_map_snd]⟩
  | some (l + 1) =>
    by_cases hl : l + 1 < (withKeys records frag sortKey reverse).length
    · refine ⟨_, _, by dsimp only; rw [if_pos hl], ?_⟩
      rw [List.map_take, head?_take, withKeys_map_snd]
    · exact ⟨_, _, by dsimp only; rw [if_neg hl], by rw [withKeys_map_snd]⟩

/-! ## C10: partition-only index fragments under `get` -/

/-- C10, counterexample: on a table keyed `(p, s)` with index `q-r-index`
(partition `q`, sort `r`), the store may hold a record that matches
`q = 1` but lacks the index sort key `r` (nothing forces stored records to
carry index keys). `Table.get {q: 1}` resolves to the index and issues the
query, but the engine's `filtered.sort(key=lambda x: x[sort_key])` raises
`KeyError` on that record, so the lookup raises instead of returning the
first record — refuting the claim's unconditional "never raises ...
returns the first record in the index's order". -/
theorem c10_partition_only_index_get_counterexample :
    (tableGet (fun n => n == 0)
        (TableDesc.mk "t" "p" (some "s")
          [IndexDesc.mk "q" (some "r") "q-r-index" false])
        [[("p", 1), ("s", 1), ("q", (1 : Nat))]]
        [("q", KV.lit 1)]).1
      = Except.error "query raised"
  ∧ (tableGet (fun n => n == 0)
        (TableDesc.mk "t" "p" (some "s")
          [IndexDesc.mk "q" (some "r") "q-r-index" false])
        [[("p", 1), ("s", 1), ("q", (1 : Nat))]]
        [("q", KV.lit 1)]).2 = [BCall.queryIndex] := by decide

/-- C10, amended: provided every record matching the fragment carries the
index sort key `r` (otherwise the engine's sort raises `KeyError`; see the
counterexample), `Table.get` with the fragment `{q}` — a declared index's
partition key alone, non-empty value — never raises for matching multiple
records: it resolves to the index, issues one `query_index` call with
limit 1, and returns the head of the index-ordered result (or `none` when
nothing matches) — whereas the fragment `{p}` (the table's own partition
key alone) is rejected with no backend call, because a single result is
requested and the sort key is missing. -/
theorem c10_partition_only_index_get_amended (falsy : V → Bool)
    (store : List (Rec V)) (v w : V) (hv : falsy v = false)
    (hw : falsy w = false)
    (hsk : ∀ r0 ∈ filteredRecords store [("q", KV.lit v)],
      rget r0 "r" ≠ ⊥) :
    tableGet falsy
        (TableDesc.mk "t" "p" (some "s")
          [IndexDesc.mk "q" (some "r") "q-r-index" false])
        store [("q", KV.lit v)]
      = (Except.ok ((orderedRecords store [("q", KV.lit v)] (some "r")
          false).head?), [BCall.queryIndex])
  ∧ isErr (tableGet falsy
        (TableDesc.mk "t" "p" (some "s")
          [IndexDesc.mk "q" (some "r") "q-r-index" false])
        store [("p", KV.lit w)]).1 = true
  ∧ (tableGet falsy
        (TableDesc.mk "t" "p" (some "s")
          [IndexDesc.mk "q" (some "r") "q-r-index" false])
        store [("p", KV.lit w)]).2 = [] := by
  have hdet : determineLookup falsy
      (TableDesc.mk "t" "p" (some "s")
        [IndexDesc.mk "q" (some "r") "q-r-index" false])
      [("q", KV.lit v)] false
      = Except.ok (Lookup.index "t" "q-r-index" [("q", KV.lit v)] (some "r")
          false) := by
    unfold determineLookup
    simp [kvFalsy, hv, setEq, tableKeyNames, indexKeyNames]
  have hdet2 : determineLookup falsy
      (TableDesc.mk "t" "p" (some "s")
        [IndexDesc.mk "q" (some "r") "q-r-index" false])
      [("p", KV.lit w)] false
      = Except.error "Looking up one value, but missing sort key" := by
    unfold determineLookup
    simp [kvFalsy, hw, setEq, tableKeyNames, indexKeyNames]
  have hval : validateOnlySortKey (specConds [("q", KV.lit v)]) (some "r")
      = true := rfl
  have hsort : sortOk store [("q", KV.lit v)] (some "r") = true := by
    unfold sortOk
    rw [List.all_eq_true]
    intro r0 hr0
    have hb := hsk r0 hr0
    unfold rget at hb
    cases hv2 : rget? r0 "r" with
    | none => rw [hv2] at hb; exact absurd rfl hb
    | some u => rfl
  obtain ⟨rs, nt, heq, hhead⟩ := localQuery_head store [("q", KV.lit v)]
    (some "r") false (some 1) hval hsort
  refine ⟨?_, ?_, ?_⟩
  · simp [tableGet, hdet, localQueryIndex, heq, hhead]
  · simp [tableGet, hdet2, isErr]
  · simp [tableGet, hdet2]

/-- C10, witness: two records match `q = 1`, both carrying the index sort
key `r`; `get` returns the one whose `r` is smallest, and `get` on `{p}`
errors with no backend call. -/
theorem c10_partition_only_index_get_amended_witness :
    tableGet (fun n => n == 0)
        (TableDesc.mk "t" "p" (some "s")
          [IndexDesc.mk "q" (some "r") "q-r-index" false])
        [[("p", 1), ("s", 1), ("q", 1), ("r", (9 : Nat))],
         [("p", 2), ("s", 1), ("q", 1), ("r", 4)]]
        [("q", KV.lit 1)]
      = (Except.ok (some [("p", 2), ("s", 1), ("q", 1), ("r", 4)]),
         [BCall.queryIndex])
  ∧ isErr (tableGet (fun n => n == 0)
        (TableDesc.mk "t" "p" (some "s")
          [IndexDesc.mk "q" (some "r") "q-r-index" false])
        [[("p", 1), ("s", 1), ("q", 1), ("r", (9 : Nat))],
         [("p", 2), ("s", 1), ("q", 1), ("r", 4)]]
        [("p", KV.lit 1)]).1 = true := by
  have h := c10_partition_only_index_get_amended (fun n => n == 0)
    [[("p", 1), ("s", 1), ("q", 1), ("r", (9 : Nat))],
     [("p", 2), ("s", 1), ("q", 1), ("r", 4)]]
    1 1 (by decide) (by decide) (by decide)
  refine ⟨?_, h.2.1⟩
  rw [h.1]
  decide

/-! ## C6: keys-only projection -/

theorem optMap_mem {α β : Type} (f : α → Option β) (l : List α)
    (l' : List β) (h : optMap f l = some l') :
    ∀ b ∈ l', ∃ a ∈ l, f a = some b := by
  induction l generalizing l' with
  | nil =>
    unfold optMap at h
    cases h
    intro b hb
    cases hb
  | cons x xs ih =>
    unfold optMap at h
    cases hfx : f x with
    | none => rw [hfx] at h; cases h
    | some y =>
      rw [hfx] at h
      cases hrest : optMap f xs with
      | none => rw [hrest] at h; cases h
      | some ys =>
        rw [hrest] at h
        cases h
        intro b hb
        rcases List.mem_cons.mp hb with hb | hb
        · exact ⟨x, List.mem_cons_self x xs, by rw [hfx, hb]⟩
        · obtain ⟨a, ha, hfa⟩ := ih ys hrest b hb
          exact ⟨a, List.mem_cons_of_mem x ha, hfa⟩

theorem projectRecord_fields (retain : List String) (r r' : Rec V)
    (h : projectRecord retain r = some r') :
    r'.map (fun p => p.1) = retain := by
  unfold projectRecord at h
  induction retain generalizing r' with
  | nil => unfold optMap at h; cases h; rfl
  | cons k ks ih =>
    unfold optMap at h
    cases hv : rget? r k with
    | none => rw [hv] at h; cases h
    | some v =>
      rw [hv] at h
      simp only [Option.map_some'] at h
      cases hrest : optMap (fun k => (rget? r k).map (fun v => (k, v))) ks with
      | none => rw [hrest] at h; cases h
      | some ys =>
        rw [hrest] at h
        cases h
        simp only [List.map_cons]
        rw [ih ys hrest]

/-- C6, counterexample: the fragment `{a: 1, b: 2}` reaches the keys_only
index `a-index` through `_determine_lookup`'s representative-field rule (the
quirk reported with C2), and `query_index`'s projection retains the
*fragment's* fields: the returned record carries `b`, which is neither a
declared index-key field nor a table-key field — refuting "contains exactly
the declared index-key fields plus the table's own key fields and no other
field". -/
theorem c6_keys_only_projection_counterexample :
    (tableGetMany (fun n => n == 0)
        (TableDesc.mk "t" "p" (some "s")
          [IndexDesc.mk "a" none "a-index" true])
        [[("p", 1), ("s", 1), ("a", 1), ("b", 2), ("x", (9 : Nat))]]
        [("a", KV.lit 1), ("b", KV.lit 2)] false none none).1
      = Except.ok ([[("a", 1), ("b", 2), ("p", 1), ("s", 1)]], none)
  ∧ "b" ∈ fieldsOf [("a", 1), ("b", 2), ("p", 1), ("s", (1 : Nat))]
  ∧ ¬("b" ∈ indexKeyNames (IndexDesc.mk "a" none "a-index" true)
      ++ tableKeyNames (TableDesc.mk "t" "p" (some "s")
        [IndexDesc.mk "a" none "a-index" true])) := by decide

/-- C6, amended: a record returned by a keys_only index query of the local
engine carries exactly the union of the query *fragment's* fields, the
index sort key and the table's key fields (the code's `keys_to_retain`).
When the fragment's fields all lie within the declared index keys — the
shape produced by looking up on the index keys — that union is exactly the
declared index-key plus table-key fields, as claimed; but a multi-field
fragment routed to the index by the representative-field resolution keeps
its non-key fields, so "exactly the index and table keys, never others"
fails in general. -/
theorem c6_keys_only_projection_amended (records : List (Rec V))
    (frag : Frag V) (isort : Option String) (reverse : Bool)
    (limit : Option Nat) (tok : Option (PosKey V)) (tkn : List String)
    (out : List (Rec V) × Option (PosKey V))
    (hout : localQueryIndex records frag isort reverse limit tok true tkn
      = some out) :
    ∀ r ∈ out.1, (r.map (fun p => p.1)).toFinset
      = (frag.map (fun p => p.1) ++ isort.toList ++ tkn).toFinset := by
  unfold localQueryIndex at hout
  cases hq : localQuery records frag isort reverse limit tok with
  | none => rw [hq] at hout; cases hout
  | some rsnt =>
    rw [hq] at hout
    simp only [Bool.not_true, Bool.false_eq_true, if_false] at hout
    cases homap : optMap
        (projectRecord ((frag.map (fun p => p.1) ++ isort.toList ++
          tkn).dedup)) rsnt.1 with
    | none =>
      rw [homap] at hout
      cases hout
    | some rs' =>
      rw [homap] at hout
      cases hout
      intro r hr
      obtain ⟨r0, _, hproj⟩ := optMap_mem _ _ _ homap r hr
      rw [projectRecord_fields _ _ _ hproj]
      ext k
      simp [List.mem_dedup]

/-- C6, witness: a keys-only query of `a-index` with the two-field fragment
`{a, b}` on a table keyed `(p, s)` returns the matching record projected to
exactly `{a, b} ∪ {p, s}`, although the stored record also carries `x`. -/
theorem c6_keys_only_projection_amended_witness :
    ([("a", 1), ("b", 2), ("p", 1), ("s", (1 : Nat))].map
        (fun p => p.1)).toFinset
      = (([("a", KV.lit 1), ("b", KV.lit (2 : Nat))].map (fun p => p.1))
          ++ (none : Option String).toList ++ ["p", "s"]).toFinset := by
  have hout : localQueryIndex
      [[("p", 1), ("s", 1), ("a", 1), ("b", 2), ("x", (9 : Nat))]]
      [("a", KV.lit 1), ("b", KV.lit 2)] none false none none true
      ["p", "s"]
      = some ([[("a", 1), ("b", 2), ("p", 1), ("s", 1)]], none) := by decide
  exact c6_keys_only_projection_amended _ _ none false none none ["p", "s"]
    _ hout _ (by decide)

/-! ## C2: lookup resolution, amended -/

/-- C2, amended: for fragments with non-empty values, resolution is
deterministic and value-independent in priority order. (i) A field set equal
to the table's key set gives a direct table lookup. (ii) Otherwise the first
declared index whose key field set equals the fragment's field set, or whose
partition key equals the fragment's representative field `one_key` (an
arbitrary member of the field set — the source takes `list(set(keys))[0]`,
modelled as the first fragment field; the single field when only one is
present) gives an index lookup. (iii) The branch taken depends only on the
fragment's field sequence, never on the values carried. -/
theorem c2_lookup_resolution_amended (falsy falsy2 : V → Bool)
    (t : TableDesc) (frag frag2 : Frag V) (many : Bool) (k0 : String)
    (krest : List String)
    (hff : frag.any (fun p => kvFalsy falsy p.2) = false)
    (hff2 : frag2.any (fun p => kvFalsy falsy2 p.2) = false)
    (hkeys : frag.map (fun p => p.1) = k0 :: krest) :
    (setEq (k0 :: krest) (tableKeyNames t) = true →
      determineLookup falsy t frag many
        = Except.ok (Lookup.table t.tableName frag))
  ∧ (∀ ix, setEq (k0 :: krest) (tableKeyNames t) = false →
      t.indexes.find? (fun ix =>
        setEq (k0 :: krest) (indexKeyNames ix) || (k0 == ix.partitionKey))
        = some ix →
      determineLookup falsy t frag many
        = Except.ok (Lookup.index t.tableName ix.indexName frag ix.sortKey
            ix.keysOnly))
  ∧ (frag2.map (fun p => p.1) = k0 :: krest →
      lookupShape (determineLookup falsy2 t frag2 many)
        = lookupShape (determineLookup falsy t frag many)) := by
  refine ⟨?_, ?_, ?_⟩
  · intro hse
    unfold determineLookup
    simp [hff, hkeys, hse]
  · intro ix hse hfind
    unfold determineLookup
    simp only [hff, Bool.false_eq_true, if_false, hkeys, List.head?_cons,
      hse, if_false, hfind]
  · intro h2
    unfold determineLookup
    simp only [hff, hff2, Bool.false_eq_true, if_false, hkeys, h2,
      List.head?_cons]
    by_cases hse : setEq (k0 :: krest) (tableKeyNames t) = true
    · simp [hse, lookupShape]
    · rw [Bool.not_eq_true] at hse
      simp only [hse, Bool.false_eq_true, if_false]
      cases hf : t.indexes.find? (fun ix =>
          setEq (k0 :: krest) (indexKeyNames ix) || (k0 == ix.partitionKey))
          with
      | some ix => simp [lookupShape]
      | none =>
        by_cases hk : krest = []
        · by_cases hp : k0 = t.partitionKey
          · cases many <;> simp [hk, hp, lookupShape]
          · simp [hk, hp, lookupShape]
        · simp [hk, lookupShape]

/-- C2, witness: a full-key fragment on table `(p, s)` resolves to a direct
table lookup. -/
theorem c2_lookup_resolution_amended_witness :
    determineLookup (fun n => n == 0)
        (TableDesc.mk "t" "p" (some "s")
          [IndexDesc.mk "q" none "q-index" false])
        [("p", KV.lit (1 : Nat)), ("s", KV.lit 2)] false
      = Except.ok (Lookup.table "t" [("p", KV.lit 1), ("s", KV.lit 2)]) :=
  (c2_lookup_resolution_amended (fun n => n == 0) (fun n => n == 0)
    (TableDesc.mk "t" "p" (some "s") [IndexDesc.mk "q" none "q-index" false])
    [("p", KV.lit 1), ("s", KV.lit 2)] [("p", KV.lit 1), ("s", KV.lit 2)]
    false "p" ["s"] (by decide) (by decide) (by decide)).1 (by decide)

/-! ## C1: pagination concatenation, amended -/

theorem dropTok_all_false (sortKey : Option String) (reverse : Bool)
    (tok : PosKey V) (l : List (PosKey V × Rec V))
    (h : ∀ (i : Nat) (hi : i < l.length),
      beforeOrEqual sortKey reverse l[i].1 tok = some false) :
    dropTok sortKey reverse tok l = some l := by
  cases l with
  | nil => rfl
  | cons x xs =>
    have h0 := h 0 (by simp)
    simp only [List.getElem_cons_zero] at h0
    unfold dropTok
    rw [h0]

theorem dropTok_spec (sortKey : Option String) (reverse : Bool)
    (l : List (PosKey V × Rec V)) :
    ∀ (t : Nat) (tok : PosKey V),
    (∀ (i : Nat) (hi : i < l.length),
      beforeOrEqual sortKey reverse l[i].1 tok = some (decide (i ≤ t))) →
    dropTok sortKey reverse tok l = some (l.drop (t + 1)) := by
  induction l with
  | nil => intro t tok _; rfl
  | cons x xs ih =>
    intro t tok h
    have h0 : beforeOrEqual sortKey reverse x.1 tok = some true := by
      have h0 := h 0 (by simp)
      simpa using h0
    have hxs : dropTok sortKey reverse tok xs = some (List.drop t xs) := by
      cases t with
      | zero =>
        rw [dropTok_all_false sortKey reverse tok xs (fun i hi => by
          have hh := h (i + 1) (by simpa using Nat.succ_lt_succ hi)
          simpa using hh)]
        rfl
      | succ t' =>
        exact ih t' tok (fun i hi => by
          have hh := h (i + 1) (by simpa using Nat.succ_lt_succ hi)
          simpa [Nat.succ_le_succ_iff] using hh)
    unfold dropTok
    rw [h0]
    show dropTok sortKey reverse tok xs = some (List.drop (t + 1) (x :: xs))
    rw [hxs]
    rfl

theorem getLast?_take_succ {α : Type} (w : List α) (l : Nat)
    (h : l < w.length) : (w.take (l + 1)).getLast? = some w[l] := by
  rw [List.getLast?_eq_getElem?]
  have hlen : (w.take (l + 1)).length = l + 1 := by
    rw [List.length_take]
    omega
  rw [hlen]
  simp only [Nat.add_sub_cancel, List.getElem?_take, Nat.lt_succ_self,
    if_true]
  exact List.getElem?_eq_getElem h

theorem collectPages_drop (records : List (Rec V)) (frag : Frag V)
    (sortKey : Option String) (reverse : Bool) (limit : Option Nat)
    (wk : List (PosKey V × Rec V))
    (hwkeq : withKeys records frag sortKey reverse = wk)
    (hval : validateOnlySortKey (specConds frag) sortKey = true)
    (hsort : sortOk records frag sortKey = true)
    (Hne : ∀ (i : Nat) (hi : i < wk.length), wk[i].1.isEmpty = false)
    (HK : ∀ (i t : Nat) (hi : i < wk.length) (ht : t < wk.length),
      beforeOrEqual sortKey reverse wk[i].1 wk[t].1 = some (decide (i ≤ t))) :
    ∀ (fuel n : Nat) (tok : Option (PosKey V)),
      n ≤ wk.length → wk.length - n < fuel →
      ((n = 0 ∧ tok = none) ∨
        (∃ (m : Nat) (hm : m < wk.length), n = m + 1 ∧ tok = some wk[m].1)) →
      collectPages records frag sortKey reverse limit fuel tok
        = some ((wk.drop n).map (fun p => p.2)) := by
  intro fuel
  induction fuel with
  | zero =>
    intro n tok h1 h2 h3
    omega
  | succ fuel ih =>
    intro n tok h1 h2 h3
    have hdropped : afterTok records frag sortKey reverse tok
        = some (wk.drop n) := by
      rcases h3 with ⟨hn0, htok⟩ | ⟨m, hm, hnm, htok⟩
      · subst hn0; subst htok
        rw [show afterTok records frag sortKey reverse none
          = some (withKeys records frag sortKey reverse) from rfl, hwkeq]
        rfl
      · subst hnm; subst htok
        rw [show afterTok records frag sortKey reverse (some wk[m].1)
          = (if (wk[m].1).isEmpty then
              some (withKeys records frag sortKey reverse)
            else dropTok sortKey reverse wk[m].1
              (withKeys records frag sortKey reverse)) from rfl]
        rw [hwkeq, if_neg (by simp [Hne m hm])]
        exact dropTok_spec sortKey reverse wk m wk[m].1
          (fun i hi => HK i m hi hm)
    match limit with
    | none =>
      have hlq : localQuery records frag sortKey reverse none tok
          = some ((wk.drop n).map (fun p => p.2), none) := by
        unfold localQuery
        rw [hval, hsort, hdropped]
        rfl
      unfold collectPages
      rw [hlq]
    | some 0 =>
      have hlq : localQuery records frag sortKey reverse (some 0) tok
          = some ((wk.drop n).map (fun p => p.2), none) := by
        unfold localQuery
        rw [hval, hsort, hdropped]
        rfl
      unfold collectPages
      rw [hlq]
    | some (l + 1) =>
      by_cases hl : l + 1 < (wk.drop n).length
      · have hnl : n + l < wk.length := by
          rw [List.length_drop] at hl
          omega
        have htake : ((wk.drop n).take (l + 1)).getLast?
            = some (wk[n + l]) := by
          rw [getLast?_take_succ (wk.drop n) l (by omega)]
          congr 1
          exact List.getElem_drop wk
        have hlq : localQuery records frag sortKey reverse (some (l + 1)) tok
            = some (((wk.drop n).take (l + 1)).map (fun p => p.2),
                some (wk[n + l]).1) := by
          unfold localQuery
          rw [hval, hsort, hdropped]
          dsimp only
          rw [if_pos hl, htake]
          rfl
        have hrest := ih (n + l + 1) (some (wk[n + l]).1) (by omega)
          (by omega) (Or.inr ⟨n + l, hnl, rfl, rfl⟩)
        unfold collectPages
        rw [hlq]
        dsimp only
        rw [hrest]
        simp only [Option.map_some']
        congr 1
        rw [← List.map_append]
        congr 1
        have hdd : wk.drop (n + l + 1) = (wk.drop n).drop (l + 1) := by
          rw [List.drop_drop, Nat.add_assoc]
        rw [hdd]
        exact List.take_append_drop (l + 1) (wk.drop n)
      · have hlq : localQuery records frag sortKey reverse (some (l + 1)) tok
            = some ((wk.drop n).map (fun p => p.2), none) := by
          unfold localQuery
          rw [hval, hsort, hdropped]
          dsimp only
          rw [if_neg hl]
          rfl
        unfold collectPages
        rw [hlq]

theorem mem_orderedRecords (records : List (Rec V)) (frag : Frag V)
    (sortKey : Option String) (reverse : Bool) (r : Rec V)
    (h : r ∈ orderedRecords records frag sortKey reverse) :
    queryMatches frag r = true := by
  have hf : r ∈ filteredRecords records frag := by
    unfold orderedRecords at h
    have h' : r ∈ sortedRecords records frag sortKey := by
      by_cases hrev : reverse = true
      · rw [if_pos hrev] at h
        exact List.mem_reverse.mp h
      · rw [if_neg hrev] at h
        exact h
    unfold sortedRecords at h'
    cases sortKey with
    | none => exact h'
    | some s =>
      exact (List.perm_insertionSort (sortLe s)
        (filteredRecords records frag)).mem_iff.mp h'
  exact (List.mem_filter.mp hf).2

theorem rget_of_match_lit (f : String) (c : V) (r : Rec V)
    (h : queryMatches [(f, KV.lit c)] r = true) :
    rget r f = (c : WithBot V) := by
  unfold queryMatches eqConds specConds at h
  simp only [List.filterMap_cons, List.filterMap_nil, List.all_cons,
    List.all_nil, Bool.and_true, Bool.true_and] at h
  exact eq_of_beq h

theorem extractKey_single_nosort (f : String) (c : V) (hf : f ≠ "offset")
    (i : Nat) (r : Rec V) (hr : rget r f = (c : WithBot V)) :
    extractKey [(f, KV.lit c)] none i r
      = [(f, PosVal.fv (c : WithBot V)), ("offset", PosVal.off i)] := by
  unfold extractKey dictSet
  simp [hr, hf]

theorem extractKey_single_sort (f s : String) (c : V) (hfs : f ≠ s)
    (i : Nat) (r : Rec V) (hr : rget r f = (c : WithBot V)) :
    extractKey [(f, KV.lit c)] (some s) i r
      = [(f, PosVal.fv (c : WithBot V)), (s, PosVal.fv (rget r s))] := by
  unfold extractKey dictSet
  simp [hr, hfs]

theorem bOE_nosort (reverse : Bool) (f : String) (hf : f ≠ "offset")
    (c : V) (i t : Nat) :
    beforeOrEqual none reverse
        [(f, PosVal.fv (c : WithBot V)), ("offset", PosVal.off i)]
        [(f, PosVal.fv (c : WithBot V)), ("offset", PosVal.off t)]
      = some (decide (i ≤ t)) := by
  have h1 : (f == "offset") = false := by
    simp [hf]
  have h2 : ("offset" == f) = false := by
    simp [Ne.symm hf]
  unfold beforeOrEqual orderable pkGet pairLE pvLE
  simp [List.find?, h1, h2]

theorem bOE_sort (reverse : Bool) (f s : String) (hfs : f ≠ s) (c : V)
    (x y : WithBot V) :
    beforeOrEqual (some s) reverse
        [(f, PosVal.fv (c : WithBot V)), (s, PosVal.fv x)]
        [(f, PosVal.fv (c : WithBot V)), (s, PosVal.fv y)]
      = some (if reverse then decide (y ≤ x) else decide (x ≤ y)) := by
  have h1 : (f == s) = false := by
    simp [hfs]
  have h2 : (s == f) = false := by
    simp [Ne.symm hfs]
  unfold beforeOrEqual orderable pkGet pairLE pvLE
  cases reverse with
  | false => simp [List.find?, h1, h2]
  | true => simp [List.find?, h1, h2]

theorem withKeys_getElem (records : List (Rec V)) (frag : Frag V)
    (sortKey : Option String) (reverse : Bool) (i : Nat)
    (hi : i < (withKeys records frag sortKey reverse).length)
    (hi' : i < (orderedRecords records frag sortKey reverse).length) :
    (withKeys records frag sortKey reverse)[i]
      = (extractKey frag sortKey i
          ((orderedRecords records frag sortKey reverse)[i]),
         (orderedRecords records frag sortKey reverse)[i]) := by
  unfold withKeys
  rw [List.getElem_map, List.getElem_enum]

theorem length_withKeys (records : List (Rec V)) (frag : Frag V)
    (sortKey : Option String) (reverse : Bool) :
    (withKeys records frag sortKey reverse).length
      = (orderedRecords records frag sortKey reverse).length := by
  unfold withKeys
  rw [List.length_map, List.enum_length]

theorem length_orderedRecords_le (records : List (Rec V)) (frag : Frag V)
    (sortKey : Option String) (reverse : Bool) :
    (orderedRecords records frag sortKey reverse).length ≤ records.length := by
  unfold orderedRecords sortedRecords filteredRecords
  have hbase : (records.filter (queryMatches frag)).length ≤ records.length :=
    List.length_filter_le _ _
  cases sortKey with
  | none =>
    by_cases hrev : reverse = true
    · simpa [hrev] using hbase
    · simpa [hrev] using hbase
  | some s =>
    by_cases hrev : reverse = true
    · simpa [hrev, List.length_insertionSort] using hbase
    · simpa [hrev, List.length_insertionSort] using hbase

theorem sorted_strict (records : List (Rec V)) (frag : Frag V) (s : String)
    (hnodup : ((filteredRecords records frag).map
      (fun r => rget r s)).Nodup) :
    List.Pairwise (fun a b => rget a s < rget b s)
      (sortedRecords records frag (some s)) := by
  have hsorted : List.Sorted (sortLe (V := V) s)
      ((filteredRecords records frag).insertionSort (sortLe s)) :=
    List.sorted_insertionSort _ _
  have hperm := List.perm_insertionSort (sortLe (V := V) s)
    (filteredRecords records frag)
  have hnd : (((filteredRecords records frag).insertionSort
      (sortLe s)).map (fun r => rget r s)).Nodup :=
    ((hperm.map (fun r => rget r s)).nodup_iff).mpr hnodup
  have hne : List.Pairwise (fun a b => rget a s ≠ rget b s)
      ((filteredRecords records frag).insertionSort (sortLe s)) :=
    List.pairwise_map.mp hnd
  have hlt := (hsorted.and hne).imp
    (fun h => lt_of_le_of_ne h.1 h.2)
  exact hlt

theorem ordered_vals_decide (records : List (Rec V)) (frag : Frag V)
    (s : String) (reverse : Bool)
    (hnodup : ((filteredRecords records frag).map
      (fun r => rget r s)).Nodup) (i t : Nat)
    (hi : i < (orderedRecords records frag (some s) reverse).length)
    (ht : t < (orderedRecords records frag (some s) reverse).length) :
    (if reverse then
      decide (rget ((orderedRecords records frag (some s) reverse)[t]) s
        ≤ rget ((orderedRecords records frag (some s) reverse)[i]) s)
    else
      decide (rget ((orderedRecords records frag (some s) reverse)[i]) s
        ≤ rget ((orderedRecords records frag (some s) reverse)[t]) s))
      = decide (i ≤ t) := by
  have hS := List.pairwise_iff_getElem.mp (sorted_strict records frag s hnodup)
  cases reverse with
  | false =>
    have hord : orderedRecords records frag (some s) false
        = sortedRecords records frag (some s) := rfl
    simp only [hord] at hi ht ⊢
    simp only [Bool.false_eq_true, if_false]
    rcases Nat.lt_trichotomy i t with hit | hit | hit
    · simp [le_of_lt (hS i t hi ht hit), Nat.le_of_lt hit]
    · subst hit
      simp
    · have hv := hS t i ht hi hit
      simp [not_le.mpr hv, Nat.not_le.mpr hit]
  | true =>
    have hord : orderedRecords records frag (some s) true
        = (sortedRecords records frag (some s)).reverse := rfl
    simp only [hord] at hi ht ⊢
    simp only [if_true]
    rw [List.getElem_reverse, List.getElem_reverse]
    rw [List.length_reverse] at hi ht
    rcases Nat.lt_trichotomy i t with hit | hit | hit
    · have hv := hS ((sortedRecords records frag (some s)).length - 1 - t)
        ((sortedRecords records frag (some s)).length - 1 - i)
        (by omega) (by omega) (by omega)
      simp [le_of_lt hv, Nat.le_of_lt hit]
    · subst hit
      simp
    · have hv := hS ((sortedRecords records frag (some s)).length - 1 - i)
        ((sortedRecords records frag (some s)).length - 1 - t)
        (by omega) (by omega) (by omega)
      simp [not_le.mpr hv, Nat.not_le.mpr hit]

/-- C1, amended: issuing `LocalStorage.query` repeatedly, feeding each
returned next-page token into the next call until the token is `none`, and
concatenating the pages, yields exactly the single unpaginated query result,
for every ordering direction and every per-call limit — provided the key
fragment is one equality field `f` (with `f ≠ "offset"` when no sort key is
given), and, when a sort key is given, the matched records all carry the
sort key with pairwise-distinct values. (`records.length + 1` calls always
suffice.) The per-call limit only ever splits the sequence into pages; it
never bounds the total. -/
theorem c1_pagination_concat_amended (records : List (Rec V)) (f : String)
    (c : V) (sortKey : Option String) (reverse : Bool) (limit : Option Nat)
    (hcase : (sortKey = none ∧ f ≠ "offset") ∨
      (∃ s, sortKey = some s ∧ f ≠ s ∧
        (∀ r ∈ filteredRecords records [(f, KV.lit c)], rget r s ≠ ⊥) ∧
        ((filteredRecords records [(f, KV.lit c)]).map
          (fun r => rget r s)).Nodup)) :
    collectPages records [(f, KV.lit c)] sortKey reverse limit
        (records.length + 1) none
      = (localQuery records [(f, KV.lit c)] sortKey reverse none none).map
          (fun p => p.1) := by
  have hval : validateOnlySortKey (specConds [(f, KV.lit c)]) sortKey
      = true := by
    cases sortKey <;> rfl
  have hwklen : (withKeys records [(f, KV.lit c)] sortKey reverse).length
      ≤ records.length := by
    rw [length_withKeys]
    exact length_orderedRecords_le records _ sortKey reverse
  have hsort : sortOk records [(f, KV.lit c)] sortKey = true := by
    rcases hcase with ⟨hn, _⟩ | ⟨s, hs, _, hbot, _⟩
    · rw [hn]
      rfl
    · rw [hs]
      unfold sortOk
      rw [List.all_eq_true]
      intro r hr
      have hb := hbot r hr
      unfold rget at hb
      cases hv : rget? r s with
      | none => rw [hv] at hb; exact absurd rfl hb
      | some v => rfl
  have hrhs : localQuery records [(f, KV.lit c)] sortKey reverse none none
      = some ((withKeys records [(f, KV.lit c)] sortKey reverse).map
          (fun p => p.2), none) := by
    unfold localQuery
    rw [hval, hsort]
    rfl
  rcases hcase with ⟨hsk, hf⟩ | ⟨s, hsk, hfs, _hbot, hnodup⟩
  · subst hsk
    have hkey : ∀ (i : Nat)
        (hi : i < (withKeys records [(f, KV.lit c)] none reverse).length),
        (withKeys records [(f, KV.lit c)] none reverse)[i].1
          = [(f, PosVal.fv (c : WithBot V)), ("offset", PosVal.off i)] := by
      intro i hi
      have hi' : i < (orderedRecords records [(f, KV.lit c)] none
          reverse).length := by
        rw [length_withKeys] at hi
        exact hi
      rw [withKeys_getElem records _ none reverse i hi hi']
      exact extractKey_single_nosort f c hf i _
        (rget_of_match_lit f c _
          (mem_orderedRecords records _ none reverse _
            (List.getElem_mem hi')))
    have hmain := collectPages_drop records [(f, KV.lit c)] none reverse
      limit (withKeys records [(f, KV.lit c)] none reverse) rfl hval hsort
      (fun i hi => by rw [hkey i hi]; rfl)
      (fun i t hi ht => by
        rw [hkey i hi, hkey t ht]
        exact bOE_nosort reverse f hf c i t)
      (records.length + 1) 0 none (Nat.zero_le _) (by omega)
      (Or.inl ⟨rfl, rfl⟩)
    rw [hmain, hrhs]
    rfl
  · subst hsk
    have hkey : ∀ (i : Nat)
        (hi : i < (withKeys records [(f, KV.lit c)] (some s)
          reverse).length),
        (withKeys records [(f, KV.lit c)] (some s) reverse)[i].1
          = [(f, PosVal.fv (c : WithBot V)),
             (s, PosVal.fv (rget ((orderedRecords records [(f, KV.lit c)]
               (some s) reverse).get ⟨i, by
                 rw [length_withKeys] at hi
                 exact hi⟩) s))] := by
      intro i hi
      have hi' : i < (orderedRecords records [(f, KV.lit c)] (some s)
          reverse).length := by
        rw [length_withKeys] at hi
        exact hi
      rw [withKeys_getElem records _ (some s) reverse i hi hi']
      exact extractKey_single_sort f s c hfs i _
        (rget_of_match_lit f c _
          (mem_orderedRecords records _ (some s) reverse _
            (List.getElem_mem hi')))
    have hmain := collectPages_drop records [(f, KV.lit c)] (some s) reverse
      limit (withKeys records [(f, KV.lit c)] (some s) reverse) rfl hval
      hsort
      (fun i hi => by rw [hkey i hi]; rfl)
      (fun i t hi ht => by
        rw [hkey i hi, hkey t ht, bOE_sort reverse f s hfs c _ _]
        congr 1
        exact ordered_vals_decide records [(f, KV.lit c)] s reverse hnodup
          i t (by rw [length_withKeys] at hi; exact hi)
          (by rw [length_withKeys] at ht; exact ht))
      (records.length + 1) 0 none (Nat.zero_le _) (by omega)
      (Or.inl ⟨rfl, rfl⟩)
    rw [hmain, hrhs]
    rfl

/-- C1, witness: two records with distinct sort values, limit 1: the two
pages concatenate to the full unpaginated result. -/
theorem c1_pagination_concat_amended_witness :
    collectPages
        [[("p", 1), ("s", 5), ("id", 1)], [("p", 1), ("s", 7), ("id", (2 : Nat))]]
        [("p", KV.lit 1)] (some "s") false (some 1) 3 none
      = (localQuery
          [[("p", 1), ("s", 5), ("id", 1)], [("p", 1), ("s", 7), ("id", (2 : Nat))]]
          [("p", KV.lit 1)] (some "s") false none none).map (fun p => p.1) :=
  c1_pagination_concat_amended
    [[("p", 1), ("s", 5), ("id", 1)], [("p", 1), ("s", 7), ("id", (2 : Nat))]]
    "p" 1 (some "s") false (some 1)
    (Or.inr ⟨"s", rfl, by decide, by decide, by decide⟩)

/-! ## C3: cursor resumption, amended -/

theorem chainFetch_tokOf (pages : List (List R)) (j : Nat) :
    chainFetch pages (tokOf j) = pageData pages j := by
  unfold tokOf
  by_cases hj : j = 0
  · subst hj
    rw [if_pos rfl]
    rfl
  · rw [if_neg hj]
    rfl

theorem pageData_isEmpty_false (pages : List (List R))
    (hp : ∀ p ∈ pages, p ≠ []) (j : Nat) (hj : j < pages.length) :
    (pageData pages j).records.isEmpty = false := by
  unfold pageData
  dsimp only
  rw [List.getD_eq_getElem pages [] hj]
  exact List.isEmpty_eq_false.mpr (hp _ (List.getElem_mem hj))

theorem fetch_pending (pages : List (List R)) (hp : ∀ p ∈ pages, p ≠ [])
    (j i : Nat) (he : Option Bool) (F : List (Option Nat))
    (hj : j < pages.length) :
    fetchNextPage (chainFetch pages) (pendingSt j i he F)
      = loadedSt pages j 0 (F ++ [tokOf j]) := by
  unfold fetchNextPage pendingSt loadedSt
  simp only [chainFetch_tokOf, pageData_isEmpty_false pages hp j hj]

theorem eofCheck_pending (pages : List (List R))
    (hp : ∀ p ∈ pages, p ≠ []) (j i : Nat) (he : Option Bool)
    (F : List (Option Nat)) (hj : j < pages.length)
    (hhe : he.getD false = false) :
    eofCheck (chainFetch pages) (pendingSt j i he F)
      = (false, loadedSt pages j 0 (F ++ [tokOf j])) := by
  have hlen : 0 < (pageData pages j).records.length := by
    have h := pageData_isEmpty_false pages hp j hj
    cases hrec : (pageData pages j).records with
    | nil => rw [hrec] at h; simp at h
    | cons a l => simp
  unfold eofCheck
  rw [show haveEofT (pendingSt (R := R) j i he F) = false from hhe]
  simp only [Bool.false_eq_true, if_false]
  rw [show (pendingSt (R := R) j i he F).page.isNone = true from rfl]
  simp only [if_true]
  rw [fetch_pending pages hp j i he F hj]
  dsimp only [loadedSt]
  simp [Nat.not_le.mpr hlen]

theorem eofCheck_loaded_mid (pages : List (List R)) (j i : Nat)
    (F : List (Option Nat)) (hi : i < (pageData pages j).records.length) :
    eofCheck (chainFetch pages) (loadedSt pages j i F)
      = (false, loadedSt pages j i F) := by
  unfold eofCheck
  dsimp only [loadedSt, haveEofT, Option.getD, Option.isNone]
  simp [Nat.not_le.mpr hi]

theorem eofCheck_loaded_end (pages : List (List R)) (j i : Nat)
    (F : List (Option Nat)) (hi : (pageData pages j).records.length ≤ i)
    (hj : ¬ j + 1 < pages.length) :
    eofCheck (chainFetch pages) (loadedSt pages j i F)
      = (true, loadedSt pages j i F) := by
  have h1 : (pageData pages j).nextTok = (none : Option Nat) := by
    unfold pageData
    simp [hj]
  unfold eofCheck
  dsimp only [loadedSt, haveEofT, Option.getD, Option.isNone]
  simp [hi, h1]

theorem currentGet_loaded_mid (pages : List (List R)) (j i : Nat)
    (F : List (Option Nat)) (hi : i < (pageData pages j).records.length) :
    currentGet (chainFetch pages) (loadedSt pages j i F)
      = (some ((pageData pages j).records[i]), loadedSt pages j i F) := by
  unfold currentGet
  rw [show (loadedSt (R := R) pages j i F).page.isNone = false from rfl]
  simp only [Bool.false_eq_true, if_false]
  rw [eofCheck_loaded_mid pages j i F hi]
  dsimp only [loadedSt]
  simp [List.get?_eq_getElem?, List.getElem?_eq_getElem hi]

theorem cadvance_loaded (pages : List (List R)) (j i : Nat)
    (F : List (Option Nat)) :
    cadvance (chainFetch pages) (loadedSt pages j i F)
      = (if i + 1 < (pageData pages j).records.length then
          loadedSt pages j (i + 1) F
        else if j + 1 < pages.length then
          pendingSt (j + 1) (i + 1) (some false) F
        else loadedSt pages j (i + 1) F) := by
  unfold cadvance
  rw [show (loadedSt pages j i F).page = some (pageData pages j) from rfl]
  dsimp only [loadedSt]
  by_cases hlt : i + 1 < (pageData pages j).records.length
  · rw [if_pos hlt]
    have hc : (decide ((pageData pages j).records.length ≤ i + 1)
        && (pageData pages j).nextTok.isSome) = false := by
      simp [Nat.not_le.mpr hlt]
    rw [hc]
    simp [loadedSt]
  · rw [if_neg hlt]
    have hge : (pageData pages j).records.length ≤ i + 1 := by omega
    by_cases hj : j + 1 < pages.length
    · rw [if_pos hj]
      have htok : (pageData pages j).nextTok = some (j + 1) := by
        unfold pageData
        simp [hj]
      have hc : (decide ((pageData pages j).records.length ≤ i + 1)
          && (pageData pages j).nextTok.isSome) = true := by
        simp [hge, htok]
      rw [hc]
      simp only [if_true]
      unfold pendingSt tokOf
      rw [htok]
      simp
    · rw [if_neg hj]
      have htok : (pageData pages j).nextTok = (none : Option Nat) := by
        unfold pageData
        simp [hj]
      have hc : (decide ((pageData pages j).records.length ≤ i + 1)
          && (pageData pages j).nextTok.isSome) = false := by
        simp [htok]
      rw [hc]
      simp [loadedSt]

theorem cstep_char (pages : List (List R)) (hp : ∀ p ∈ pages, p ≠ [])
    (j i : Nat) (F : List (Option Nat)) (st : CursorSt R Nat)
    (hj : j < pages.length) (hi : i < (pageData pages j).records.length)
    (hst : st = loadedSt pages j i F ∨
      (i = 0 ∧ ∃ i' he, he.getD false = false ∧ st = pendingSt j i' he F)) :
    ∃ F', (F' = F ∨ F' = F ++ [tokOf j]) ∧
      cstep (chainFetch pages) st
        = (some ((pageData pages j).records[i]),
           if i + 1 < (pageData pages j).records.length then
             loadedSt pages j (i + 1) F'
           else if j + 1 < pages.length then
             pendingSt (j + 1) (i + 1) (some false) F'
           else loadedSt pages j (i + 1) F') := by
  rcases hst with hst | ⟨hi0, i', he, hhe, hst⟩
  · refine ⟨F, Or.inl rfl, ?_⟩
    subst hst
    unfold cstep
    rw [eofCheck_loaded_mid pages j i F hi]
    simp only [Bool.false_eq_true, if_false]
    rw [currentGet_loaded_mid pages j i F hi]
    rw [cadvance_loaded pages j i F]
  · refine ⟨F ++ [tokOf j], Or.inr rfl, ?_⟩
    subst hst
    subst hi0
    unfold cstep
    rw [eofCheck_pending pages hp j i' he F hj hhe]
    simp only [Bool.false_eq_true, if_false]
    rw [currentGet_loaded_mid pages j 0 (F ++ [tokOf j]) hi]
    rw [cadvance_loaded pages j 0 (F ++ [tokOf j])]

theorem tailFrom_cons (pages : List (List R)) (j k : Nat)
    (hk : k < (pageData pages j).records.length) :
    tailFrom pages j k
      = (pageData pages j).records[k] :: tailFrom pages j (k + 1) := by
  unfold tailFrom
  rw [List.drop_eq_getElem_cons (l := pages.getD j []) hk]
  rfl

theorem tailFrom_next_page (pages : List (List R)) (j k : Nat)
    (hk : (pageData pages j).records.length ≤ k)
    (hj : j + 1 < pages.length) :
    tailFrom pages j k = tailFrom pages (j + 1) 0 := by
  have hk' : (pages.getD j []).length ≤ k := hk
  unfold tailFrom
  rw [List.drop_eq_nil_of_le hk']
  rw [List.drop_eq_getElem_cons (l := pages) hj, List.flatten_cons]
  rw [List.getD_eq_getElem pages [] hj]
  rfl

theorem tailFrom_end (pages : List (List R)) (j k : Nat)
    (hk : (pageData pages j).records.length ≤ k)
    (hj : ¬ j + 1 < pages.length) :
    tailFrom pages j k = [] := by
  have hk' : (pages.getD j []).length ≤ k := hk
  unfold tailFrom
  rw [List.drop_eq_nil_of_le hk']
  rw [List.drop_eq_nil_of_le (by omega)]
  rfl

theorem page_len_pos (pages : List (List R)) (hp : ∀ p ∈ pages, p ≠ [])
    (j : Nat) (hj : j < pages.length) :
    0 < (pageData pages j).records.length := by
  have h := pageData_isEmpty_false pages hp j hj
  cases hrec : (pageData pages j).records with
  | nil => rw [hrec] at h; simp at h
  | cons a l => simp

theorem ccollect_run (pages : List (List R)) (hp : ∀ p ∈ pages, p ≠ []) :
    ∀ (fuel : Nat) (st : CursorSt R Nat) (j k : Nat)
      (F : List (Option Nat)),
    j < pages.length →
    ((st = loadedSt pages j k F ∧ k ≤ (pageData pages j).records.length ∧
        ((pageData pages j).records.length ≤ k → ¬ j + 1 < pages.length)) ∨
      (k = 0 ∧ ∃ i' he, he.getD false = false ∧ st = pendingSt j i' he F)) →
    (tailFrom pages j k).length < fuel →
    (ccollect (chainFetch pages) fuel st).1 = tailFrom pages j k := by
  intro fuel
  induction fuel with
  | zero =>
    intro st j k F _ _ hfuel
    omega
  | succ fuel ih =>
    intro st j k F hj hst hfuel
    by_cases hk : k < (pageData pages j).records.length
    · have hstOK : st = loadedSt pages j k F ∨
          (k = 0 ∧ ∃ i' he, he.getD false = false
            ∧ st = pendingSt j i' he F) := by
        rcases hst with ⟨h1, _, _⟩ | h2
        · exact Or.inl h1
        · exact Or.inr h2
      obtain ⟨F', _, hstep⟩ := cstep_char pages hp j k F st hj hk hstOK
      have hcons := tailFrom_cons pages j k hk
      have hfuel2 : (tailFrom pages j (k + 1)).length < fuel := by
        rw [hcons] at hfuel
        simp only [List.length_cons] at hfuel
        omega
      unfold ccollect
      rw [hstep]
      dsimp only
      rw [hcons]
      congr 1
      by_cases hlt : k + 1 < (pageData pages j).records.length
      · rw [if_pos hlt]
        exact ih _ j (k + 1) F' hj
          (Or.inl ⟨rfl, by omega, fun hc => by omega⟩) hfuel2
      · rw [if_neg hlt]
        by_cases hjp : j + 1 < pages.length
        · rw [if_pos hjp]
          have hnext := tailFrom_next_page pages j (k + 1) (by omega) hjp
          rw [hnext] at hfuel2 ⊢
          exact ih _ (j + 1) 0 F' hjp
            (Or.inr ⟨rfl, k + 1, some false, rfl, rfl⟩) hfuel2
        · rw [if_neg hjp]
          exact ih _ j (k + 1) F' hj
            (Or.inl ⟨rfl, by omega, fun _ => hjp⟩) hfuel2
    · rcases hst with ⟨hsteq, hkle, himp⟩ | ⟨hk0, i', he, hhe, hsteq⟩
      · have hkeq : (pageData pages j).records.length ≤ k := by omega
        have hjend : ¬ j + 1 < pages.length := himp hkeq
        subst hsteq
        unfold ccollect
        rw [show cstep (chainFetch pages) (loadedSt pages j k F)
          = (none, loadedSt pages j k F) from by
            unfold cstep
            rw [eofCheck_loaded_end pages j k F hkeq hjend]
            rfl]
        rw [tailFrom_end pages j k hkeq hjend]
      · exfalso
        have := page_len_pos pages hp j hj
        omega

theorem cconsume_succ (f : Option τ → ResPage R τ) (n : Nat)
    (s : CursorSt R τ) :
    cconsume f (n + 1) s = (cstep f (cconsume f n s)).2 := by
  induction n generalizing s with
  | zero => rfl
  | succ n ihn =>
    show cconsume f (n + 1) (cstep f s).2 = _
    rw [ihn]
    rfl

theorem cinit_none (pages : List (List R)) (hp : ∀ p ∈ pages, p ≠ [])
    (h0 : 0 < pages.length) :
    cinit (chainFetch pages) none = loadedSt pages 0 0 [tokOf 0] := by
  unfold cinit analyzeTok dropLoop
  dsimp only
  rw [show (CursorSt.mk none 0 none none [] : CursorSt R Nat)
      = pendingSt 0 0 none [] from by
    unfold pendingSt tokOf
    simp]
  rw [eofCheck_pending pages hp 0 0 none [] h0 rfl]
  rfl

theorem tailFrom_zero (pages : List (List R)) (h0 : 0 < pages.length) :
    tailFrom pages 0 0 = pages.flatten := by
  unfold tailFrom
  cases pages with
  | nil => simp at h0
  | cons p ps => simp

theorem cconsume_pos (pages : List (List R)) (hp : ∀ p ∈ pages, p ≠ []) :
    ∀ (k : Nat), k < pages.flatten.length →
    ∃ j i F, j < pages.length ∧ i < (pageData pages j).records.length ∧
      tailFrom pages j i = pages.flatten.drop k ∧
      (cconsume (chainFetch pages) k (cinit (chainFetch pages) none)
          = loadedSt pages j i F
        ∨ (i = 0 ∧ ∃ i' he, he.getD false = false ∧
            cconsume (chainFetch pages) k (cinit (chainFetch pages) none)
              = pendingSt j i' he F)) := by
  intro k
  induction k with
  | zero =>
    intro hk
    have h0 : 0 < pages.length := by
      rcases pages with _ | ⟨p, ps⟩
      · simp at hk
      · simp
    refine ⟨0, 0, [tokOf 0], h0, page_len_pos pages hp 0 h0, ?_,
      Or.inl (cinit_none pages hp h0)⟩
    rw [tailFrom_zero pages h0]
    rfl
  | succ k ihk =>
    intro hk
    obtain ⟨j, i, F, hj, hi, htf, hst⟩ := ihk (by omega)
    obtain ⟨F', _, hstep⟩ := cstep_char pages hp j i F _ hj hi hst
    rw [cconsume_succ]
    rw [hstep]
    dsimp only
    have hdrop : tailFrom pages j (i + 1) = pages.flatten.drop (k + 1) := by
      rw [← List.tail_drop]
      rw [← htf, tailFrom_cons pages j i hi]
      rfl
    by_cases hlt : i + 1 < (pageData pages j).records.length
    · rw [if_pos hlt]
      exact ⟨j, i + 1, F', hj, hlt, hdrop, Or.inl rfl⟩
    · by_cases hjp : j + 1 < pages.length
      · rw [if_neg hlt, if_pos hjp]
        refine ⟨j + 1, 0, F', hjp, page_len_pos pages hp (j + 1) hjp, ?_,
          Or.inr ⟨rfl, i + 1, some false, rfl, rfl⟩⟩
        rw [← tailFrom_next_page pages j (i + 1) (by omega) hjp]
        exact hdrop
      · exfalso
        have hend := tailFrom_end pages j (i + 1) (by omega) hjp
        rw [hend] at hdrop
        have hlen := congrArg List.length hdrop
        rw [List.length_drop] at hlen
        simp only [List.length_nil] at hlen
        omega

theorem dropLoop_loaded (pages : List (List R)) (j : Nat) :
    ∀ (c a : Nat) (F : List (Option Nat)),
    a + c < (pageData pages j).records.length →
    dropLoop (chainFetch pages) c (loadedSt pages j a F)
      = loadedSt pages j (a + c) F := by
  intro c
  induction c with
  | zero =>
    intro a F hac
    show (eofCheck (chainFetch pages) (loadedSt pages j a F)).2 = _
    rw [eofCheck_loaded_mid pages j a F (by omega)]
    rfl
  | succ c ihc =>
    intro a F hac
    unfold dropLoop
    rw [eofCheck_loaded_mid pages j a F (by omega)]
    dsimp only
    rw [cadvance_loaded pages j a F]
    rw [if_pos (show a + 1 < (pageData pages j).records.length by omega)]
    rw [ihc (a + 1) F (by omega)]
    rw [show a + 1 + c = a + (c + 1) from by omega]
    rfl

/-- C3, amended: over any finite chain of non-empty pages yielding `N`
records and any split point `k` with `0 ≤ k < N`, constructing a new cursor
from the resumption token captured after a cursor over the same query has
consumed `k` elements and iterating it to completion yields exactly the
remaining `N − k` records, in the same order as the uninterrupted iteration
(which yields all `N`); no element is skipped or delivered twice. (At
`k = N` the captured token is `none` and resumption restarts from the
beginning.) -/
theorem c3_cursor_resume_amended {R : Type} (pages : List (List R))
    (hp : ∀ p ∈ pages, p ≠ []) (k : Nat)
    (hk : k < pages.flatten.length) :
    (ccollect (chainFetch pages) (pages.flatten.length + 1)
        (cinit (chainFetch pages)
          (nextPageToken (chainFetch pages)
            (cconsume (chainFetch pages) k
              (cinit (chainFetch pages) none))).1)).1
      = pages.flatten.drop k
  ∧ (ccollect (chainFetch pages) (pages.flatten.length + 1)
      (cinit (chainFetch pages) none)).1 = pages.flatten := by
  have h0 : 0 < pages.length := by
    rcases pages with _ | ⟨p, ps⟩
    · simp at hk
    · simp
  obtain ⟨j, i, F, hj, hi, htf, hst⟩ := cconsume_pos pages hp k hk
  have htok : (nextPageToken (chainFetch pages)
      (cconsume (chainFetch pages) k (cinit (chainFetch pages) none))).1
      = some (tokOf j, i) := by
    rcases hst with hst | ⟨hi0, i', he, hhe, hst⟩
    · rw [hst]
      unfold nextPageToken
      rw [eofCheck_loaded_mid pages j i F hi]
      rfl
    · rw [hst]
      unfold nextPageToken
      rw [eofCheck_pending pages hp j i' he F hj hhe]
      subst hi0
      rfl
  have hres : cinit (chainFetch pages) (some (tokOf j, i))
      = loadedSt pages j i [tokOf j] := by
    unfold cinit analyzeTok
    dsimp only
    rw [show (CursorSt.mk none 0 none (tokOf j) [] : CursorSt R Nat)
        = pendingSt j 0 none [] from rfl]
    cases hi2 : i with
    | zero =>
      show (eofCheck (chainFetch pages) (pendingSt j 0 none [])).2 = _
      rw [eofCheck_pending pages hp j 0 none [] hj rfl]
      rfl
    | succ c =>
      unfold dropLoop
      rw [eofCheck_pending pages hp j 0 none [] hj rfl]
      dsimp only
      rw [cadvance_loaded pages j 0 ([] ++ [tokOf j])]
      rw [if_pos (show 0 + 1 < (pageData pages j).records.length by omega)]
      rw [dropLoop_loaded pages j c 1 ([] ++ [tokOf j]) (by omega)]
      rw [show (1 + c) = c + 1 from by omega]
      rfl
  have hcoll := ccollect_run pages hp (pages.flatten.length + 1)
    (loadedSt pages j i [tokOf j]) j i [tokOf j] hj
    (Or.inl ⟨rfl, le_of_lt hi, fun hc => absurd hc (by omega)⟩)
    (by rw [htf, List.length_drop]; omega)
  have hbase := ccollect_run pages hp (pages.flatten.length + 1)
    (loadedSt pages 0 0 [tokOf 0]) 0 0 [tokOf 0] h0
    (Or.inl ⟨rfl, Nat.zero_le _,
      fun hc => absurd hc (by
        have := page_len_pos pages hp 0 h0
        omega)⟩)
    (by rw [tailFrom_zero pages h0]; omega)
  constructor
  · rw [htok, hres, hcoll, htf]
  · rw [cinit_none pages hp h0, hbase, tailFrom_zero pages h0]

/-- C3, witness: chain `[[5], [6]]`, split point `k = 1`: resuming yields
`[6]` and the uninterrupted iteration yields `[5, 6]`. -/
theorem c3_cursor_resume_amended_witness :
    (ccollect (chainFetch [[(5 : Nat)], [6]]) ([[(5 : Nat)], [6]].flatten.length + 1)
        (cinit (chainFetch [[(5 : Nat)], [6]])
          (nextPageToken (chainFetch [[(5 : Nat)], [6]])
            (cconsume (chainFetch [[(5 : Nat)], [6]]) 1
              (cinit (chainFetch [[(5 : Nat)], [6]]) none))).1)).1
      = [[(5 : Nat)], [6]].flatten.drop 1
  ∧ (ccollect (chainFetch [[(5 : Nat)], [6]]) ([[(5 : Nat)], [6]].flatten.length + 1)
      (cinit (chainFetch [[(5 : Nat)], [6]]) none)).1
      = [[(5 : Nat)], [6]].flatten :=
  c3_cursor_resume_amended [[(5 : Nat)], [6]] (by decide) 1 (by decide)

/-! ## C4: pages fetched at most once, amended -/

theorem chainFetch_eq_pageData (pages : List (List R)) (t : Option Nat) :
    chainFetch pages t = pageData pages (tokIdx t) := by
  cases t <;> rfl

theorem eofCheck_snd (f : Option τ → ResPage R τ) (s : CursorSt R τ) :
    (eofCheck f s).2 = if haveEofT s then s
      else if s.page.isNone then fetchNextPage f s else s := by
  unfold eofCheck
  by_cases he : haveEofT s = true
  · simp [he]
  · simp only [he, Bool.false_eq_true, if_false]
    by_cases hp : s.page.isNone = true
    · simp only [hp, if_true]
      rfl
    · simp only [hp, Bool.false_eq_true, if_false]
      cases hsp : s.page with
      | none => exact absurd (by rw [hsp]; rfl) hp
      | some pg => rfl

theorem currentGet_snd (f : Option τ → ResPage R τ) (s : CursorSt R τ) :
    (currentGet f s).2
      = (eofCheck f (if s.page.isNone then fetchNextPage f s else s)).2 := by
  unfold currentGet
  by_cases hp : s.page.isNone = true
  · simp only [hp, if_true]
    by_cases he : (eofCheck f (fetchNextPage f s)).1 = true
    · simp only [he, if_true]
    · simp only [he, Bool.false_eq_true, if_false]
      cases hsp : (eofCheck f (fetchNextPage f s)).2.page with
      | none => rfl
      | some pg => rfl
  · simp only [hp, Bool.false_eq_true, if_false]
    by_cases he : (eofCheck f s).1 = true
    · simp only [he, if_true]
    · simp only [he, Bool.false_eq_true, if_false]
      cases hsp : (eofCheck f s).2.page with
      | none => rfl
      | some pg => rfl

theorem nextPageToken_snd (f : Option τ → ResPage R τ) (s : CursorSt R τ) :
    (nextPageToken f s).2 = (eofCheck f s).2 := by
  unfold nextPageToken
  by_cases he : (eofCheck f s).1 = true
  · simp only [he, if_true]
  · simp only [he, Bool.false_eq_true, if_false]

theorem fetchInv_fetch (pages : List (List R)) (s : CursorSt R Nat)
    (hpage : s.page = none) (hinv : FetchInv pages s) :
    FetchInv pages (fetchNextPage (chainFetch pages) s) := by
  obtain ⟨hpw, hrest⟩ := hinv
  have hall : ∀ t' ∈ s.fetched, tokIdx t' < tokIdx s.pagTok := by
    rcases hrest with ⟨_, hall⟩ | ⟨hps, _⟩
    · exact hall
    · rw [hpage] at hps
      cases hps
  constructor
  · show (s.fetched ++ [s.pagTok]).Pairwise _
    rw [List.pairwise_append]
    refine ⟨hpw, List.pairwise_singleton _ _, ?_⟩
    intro a ha b hb
    rw [List.mem_singleton.mp hb]
    exact hall a ha
  · exact Or.inr ⟨rfl, s.fetched, rfl, hall⟩

theorem fetchInv_eofCheck (pages : List (List R)) (s : CursorSt R Nat)
    (hinv : FetchInv pages s) :
    FetchInv pages (eofCheck (chainFetch pages) s).2 := by
  rw [eofCheck_snd]
  by_cases he : haveEofT s = true
  · rw [if_pos he]
    exact hinv
  · rw [if_neg he]
    by_cases hp : s.page.isNone = true
    · rw [if_pos hp]
      exact fetchInv_fetch pages s (Option.isNone_iff_eq_none.mp hp) hinv
    · rw [if_neg hp]
      exact hinv

theorem fetchInv_advance (pages : List (List R)) (s : CursorSt R Nat)
    (hinv : FetchInv pages s) :
    FetchInv pages (cadvance (chainFetch pages) s) := by
  obtain ⟨hpw, hrest⟩ := hinv
  rcases hrest with ⟨hpn, hall⟩ | ⟨hps, F0, hF0, hlt⟩
  · have hadv : cadvance (chainFetch pages) s
        = fetchNextPage (chainFetch pages) s := by
      unfold cadvance
      rw [hpn]
    rw [hadv]
    exact fetchInv_fetch pages s hpn ⟨hpw, Or.inl ⟨hpn, hall⟩⟩
  · have hadv : cadvance (chainFetch pages) s
        = (if (decide ((chainFetch pages s.pagTok).records.length ≤ s.i + 1)
            && (chainFetch pages s.pagTok).nextTok.isSome) = true then
          CursorSt.mk none (s.i + 1) s.haveEof
            ((chainFetch pages s.pagTok).nextTok) s.fetched
        else CursorSt.mk s.page (s.i + 1) s.haveEof s.pagTok s.fetched) := by
      unfold cadvance
      rw [hps]
    rw [hadv]
    by_cases hcond : (decide ((chainFetch pages s.pagTok).records.length
        ≤ s.i + 1) && (chainFetch pages s.pagTok).nextTok.isSome) = true
    · rw [if_pos hcond]
      have hsome : (chainFetch pages s.pagTok).nextTok.isSome = true := by
        have hc := hcond
        simp only [Bool.and_eq_true] at hc
        exact hc.2
      have hnext : (chainFetch pages s.pagTok).nextTok
          = some (tokIdx s.pagTok + 1) := by
        rw [chainFetch_eq_pageData] at hsome ⊢
        unfold pageData at hsome ⊢
        dsimp only at hsome ⊢
        by_cases hj : tokIdx s.pagTok + 1 < pages.length
        · rw [if_pos hj]
        · rw [if_neg hj] at hsome
          simp at hsome
      refine ⟨hpw, Or.inl ⟨rfl, ?_⟩⟩
      intro t' ht'
      have ht2 : t' ∈ F0 ++ [s.pagTok] := by
        rw [← hF0]
        exact ht'
      show tokIdx t' < tokIdx ((chainFetch pages s.pagTok).nextTok)
      rw [hnext]
      show tokIdx t' < tokIdx s.pagTok + 1
      rcases List.mem_append.mp ht2 with h | h
      · exact Nat.lt_succ_of_lt (hlt t' h)
      · rw [List.mem_singleton.mp h]
        exact Nat.lt_succ_self _
    · rw [if_neg hcond]
      exact ⟨hpw, Or.inr ⟨hps, F0, hF0, hlt⟩⟩

theorem fetchInv_currentGet (pages : List (List R)) (s : CursorSt R Nat)
    (hinv : FetchInv pages s) :
    FetchInv pages (currentGet (chainFetch pages) s).2 := by
  rw [currentGet_snd]
  by_cases hp : s.page.isNone = true
  · rw [if_pos hp]
    exact fetchInv_eofCheck pages _
      (fetchInv_fetch pages s (Option.isNone_iff_eq_none.mp hp) hinv)
  · rw [if_neg hp]
    exact fetchInv_eofCheck pages s hinv

theorem fetchInv_runOp (pages : List (List R)) (op : COp)
    (s : CursorSt R Nat) (hinv : FetchInv pages s) :
    FetchInv pages (runOp (chainFetch pages) op s) := by
  cases op with
  | opEof => exact fetchInv_eofCheck pages s hinv
  | opAdvance => exact fetchInv_advance pages s hinv
  | opCurrent => exact fetchInv_currentGet pages s hinv
  | opNextTok =>
    show FetchInv pages (nextPageToken (chainFetch pages) s).2
    rw [nextPageToken_snd]
    exact fetchInv_eofCheck pages s hinv

theorem fetchInv_runOps (pages : List (List R)) (ops : List COp)
    (s : CursorSt R Nat) (hinv : FetchInv pages s) :
    FetchInv pages (runOps (chainFetch pages) ops s) := by
  induction ops generalizing s with
  | nil => exact hinv
  | cons op rest ih =>
    exact ih _ (fetchInv_runOp pages op s hinv)

theorem fetchInv_dropLoop (pages : List (List R)) (n : Nat)
    (s : CursorSt R Nat) (hinv : FetchInv pages s) :
    FetchInv pages (dropLoop (chainFetch pages) n s) := by
  induction n generalizing s with
  | zero => exact fetchInv_eofCheck pages s hinv
  | succ n ih =>
    show FetchInv pages
      (if (eofCheck (chainFetch pages) s).1 = true then
        (eofCheck (chainFetch pages) s).2
      else dropLoop (chainFetch pages) n
        (cadvance (chainFetch pages) (eofCheck (chainFetch pages) s).2))
    by_cases he : (eofCheck (chainFetch pages) s).1 = true
    · rw [if_pos he]
      exact fetchInv_eofCheck pages s hinv
    · rw [if_neg he]
      exact ih _ (fetchInv_advance pages _ (fetchInv_eofCheck pages s hinv))

/-- C4, amended: construction is not lazy — `QueryCursor.__init__` probes
`eof` and thereby fetches the first page at once, so the fetch trace right
after construction is exactly `[none]` (the first-page token). From then on
the claim's at-most-once half holds: under any interleaving of
`eof`/`current`/`advance`/`next_page_token` accesses, no page token is ever
passed to the fetch function twice — in particular `is_at_end` may be
queried arbitrarily often without refetching. -/
theorem c4_pages_fetched_at_most_once {R : Type} (pages : List (List R))
    (ops : List COp) :
    (cinit (chainFetch pages) none).fetched = [none]
  ∧ (runOps (chainFetch pages) ops
      (cinit (chainFetch pages) none)).fetched.Nodup := by
  constructor
  · rfl
  · have hfresh : FetchInv pages
        (CursorSt.mk (R := R) none 0 none none []) := by
      refine ⟨List.Pairwise.nil, Or.inl ⟨rfl, ?_⟩⟩
      intro t' ht'
      cases ht'
    have hinit : FetchInv pages (cinit (chainFetch pages) none) :=
      fetchInv_dropLoop pages 0 _ hfresh
    have hrun := fetchInv_runOps pages ops _ hinit
    exact hrun.1.imp (fun hlt heq => absurd (heq ▸ hlt) (lt_irrefl _))



/-! ## C7: the page-token codec round trip -/

theorem b64_tab : ∀ n < 64, b64Dig (b64Char n) = some n ∧ b64Char n ≠ '=' := by
  decide

theorem b64Dig_b64Char (n : Nat) (h : n < 64) : b64Dig (b64Char n) = some n :=
  (b64_tab n h).1

theorem b64Char_ne (n : Nat) (h : n < 64) : (b64Char n = '=') = False :=
  eq_false (b64_tab n h).2

theorem b64encodeBytes_ne_nil (b : Nat) (bs : List Nat) :
    (b64encodeBytes (b :: bs)).isEmpty = false := by
  cases bs with
  | nil => rfl
  | cons b2 bs2 =>
    cases bs2 with
    | nil => rfl
    | cons b3 bs3 => rfl

theorem b64_round_trip : ∀ (n : Nat) (bs : List Nat), bs.length ≤ n →
    (∀ b ∈ bs, b < 256) → b64decodeChars (b64encodeBytes bs) = some bs := by
  intro n
  induction n with
  | zero =>
    intro bs h _
    rw [List.length_eq_zero.mp (Nat.le_zero.mp h)]
    rfl
  | succ n ih =>
    intro bs hlen hb
    match bs with
    | [] => rfl
    | [b1] =>
      have h1 : b1 < 256 := hb b1 (by simp)
      show b64quad (b64Char (b1 / 4)) (b64Char (b1 % 4 * 16)) '=' '='
        = some [b1]
      unfold b64quad
      rw [if_pos rfl, if_pos rfl, b64Dig_b64Char (b1 / 4) (by omega),
        b64Dig_b64Char (b1 % 4 * 16) (by omega)]
      show some [b1 / 4 * 4 + b1 % 4 * 16 / 16] = some [b1]
      rw [show b1 / 4 * 4 + b1 % 4 * 16 / 16 = b1 from by omega]
    | [b1, b2] =>
      have h1 : b1 < 256 := hb b1 (by simp)
      have h2 : b2 < 256 := hb b2 (by simp)
      show b64quad (b64Char (b1 / 4)) (b64Char (b1 % 4 * 16 + b2 / 16))
        (b64Char (b2 % 16 * 4)) '=' = some [b1, b2]
      unfold b64quad
      rw [if_neg ((b64Char_ne (b2 % 16 * 4) (by omega)) ▸ not_false),
        if_pos rfl, b64Dig_b64Char (b1 / 4) (by omega),
        b64Dig_b64Char (b1 % 4 * 16 + b2 / 16) (by omega),
        b64Dig_b64Char (b2 % 16 * 4) (by omega)]
      show some [b1 / 4 * 4 + (b1 % 4 * 16 + b2 / 16) / 16,
        (b1 % 4 * 16 + b2 / 16) % 16 * 16 + b2 % 16 * 4 / 4] = some [b1, b2]
      rw [show b1 / 4 * 4 + (b1 % 4 * 16 + b2 / 16) / 16 = b1 from by omega,
        show (b1 % 4 * 16 + b2 / 16) % 16 * 16 + b2 % 16 * 4 / 4 = b2 from by
          omega]
    | b1 :: b2 :: b3 :: rest =>
      have h1 : b1 < 256 := hb b1 (by simp)
      have h2 : b2 < 256 := hb b2 (by simp)
      have h3 : b3 < 256 := hb b3 (by simp)
      cases rest with
      | nil =>
        show b64quad (b64Char (b1 / 4)) (b64Char (b1 % 4 * 16 + b2 / 16))
          (b64Char (b2 % 16 * 4 + b3 / 64)) (b64Char (b3 % 64))
          = some [b1, b2, b3]
        unfold b64quad
        rw [if_neg ((b64Char_ne (b2 % 16 * 4 + b3 / 64) (by omega)) ▸
            not_false),
          if_neg ((b64Char_ne (b3 % 64) (by omega)) ▸ not_false),
          b64Dig_b64Char (b1 / 4) (by omega),
          b64Dig_b64Char (b1 % 4 * 16 + b2 / 16) (by omega),
          b64Dig_b64Char (b2 % 16 * 4 + b3 / 64) (by omega),
          b64Dig_b64Char (b3 % 64) (by omega)]
        show some [b1 / 4 * 4 + (b1 % 4 * 16 + b2 / 16) / 16,
          (b1 % 4 * 16 + b2 / 16) % 16 * 16 + (b2 % 16 * 4 + b3 / 64) / 4,
          (b2 % 16 * 4 + b3 / 64) % 4 * 64 + b3 % 64] = some [b1, b2, b3]
        rw [show b1 / 4 * 4 + (b1 % 4 * 16 + b2 / 16) / 16 = b1 from by omega,
          show (b1 % 4 * 16 + b2 / 16) % 16 * 16 + (b2 % 16 * 4 + b3 / 64) / 4
            = b2 from by omega,
          show (b2 % 16 * 4 + b3 / 64) % 4 * 64 + b3 % 64 = b3 from by omega]
      | cons b4 rest2 =>
        show (if (b64encodeBytes (b4 :: rest2)).isEmpty then
            b64quad (b64Char (b1 / 4)) (b64Char (b1 % 4 * 16 + b2 / 16))
              (b64Char (b2 % 16 * 4 + b3 / 64)) (b64Char (b3 % 64))
          else do
            let s1 ← b64Dig (b64Char (b1 / 4))
            let s2 ← b64Dig (b64Char (b1 % 4 * 16 + b2 / 16))
            let s3 ← b64Dig (b64Char (b2 % 16 * 4 + b3 / 64))
            let s4 ← b64Dig (b64Char (b3 % 64))
            let bs ← b64decodeChars (b64encodeBytes (b4 :: rest2))
            pure ((s1 * 4 + s2 / 16) :: (s2 % 16 * 16 + s3 / 4) ::
              (s3 % 4 * 64 + s4) :: bs))
          = some (b1 :: b2 :: b3 :: b4 :: rest2)
        rw [b64encodeBytes_ne_nil, if_neg (by simp),
          b64Dig_b64Char (b1 / 4) (by omega),
          b64Dig_b64Char (b1 % 4 * 16 + b2 / 16) (by omega),
          b64Dig_b64Char (b2 % 16 * 4 + b3 / 64) (by omega),
          b64Dig_b64Char (b3 % 64) (by omega),
          ih (b4 :: rest2) (by simp at hlen ⊢; omega)
            (fun b hbm => hb b (List.mem_cons_of_mem _
              (List.mem_cons_of_mem _ (List.mem_cons_of_mem _ hbm))))]
        show some ((b1 / 4 * 4 + (b1 % 4 * 16 + b2 / 16) / 16) ::
          ((b1 % 4 * 16 + b2 / 16) % 16 * 16 + (b2 % 16 * 4 + b3 / 64) / 4) ::
          ((b2 % 16 * 4 + b3 / 64) % 4 * 64 + b3 % 64) :: b4 :: rest2)
          = some (b1 :: b2 :: b3 :: b4 :: rest2)
        rw [show b1 / 4 * 4 + (b1 % 4 * 16 + b2 / 16) / 16 = b1 from by omega,
          show (b1 % 4 * 16 + b2 / 16) % 16 * 16 + (b2 % 16 * 4 + b3 / 64) / 4
            = b2 from by omega,
          show (b2 % 16 * 4 + b3 / 64) % 4 * 64 + b3 % 64 = b3 from by omega]

theorem hex_tab : ∀ n < 16, hexVal (hexChar n) = some n := by decide

theorem hex4_uEsc (n : Nat) (h : n < 65536) :
    hex4 (hexChar (n / 4096 % 16)) (hexChar (n / 256 % 16))
      (hexChar (n / 16 % 16)) (hexChar (n % 16)) = some n := by
  unfold hex4
  rw [hex_tab (n / 4096 % 16) (by omega), hex_tab (n / 256 % 16) (by omega),
    hex_tab (n / 16 % 16) (by omega), hex_tab (n % 16) (by omega)]
  show some (n / 4096 % 16 * 4096 + n / 256 % 16 * 256 + n / 16 % 16 * 16
    + n % 16) = some n
  rw [show n / 4096 % 16 * 4096 + n / 256 % 16 * 256 + n / 16 % 16 * 16
    + n % 16 = n from by omega]

theorem parseStrStep_cons (c : Char) (tl : List Char) :
    parseStrStep (c :: tl)
      = (if c = '"' then some (none, tl)
        else if c = '\\' then
          match tl with
          | [] => none
          | e :: r => (parseEscape e r).map (fun p => (some p.1, p.2))
        else some (some c, tl)) := rfl

theorem parseEscape_u (a b c d : Char) (r2 : List Char) :
    parseEscape 'u' (a :: b :: c :: d :: r2)
      = (match hex4 a b c d with
        | none => none
        | some n =>
          if 55296 ≤ n && n ≤ 56319 then
            match r2 with
            | b2 :: u :: g1 :: g2 :: g3 :: g4 :: r3 =>
              if b2 = '\\' && u = 'u' then
                match hex4 g1 g2 g3 g4 with
                | none => none
                | some m =>
                  if 56320 ≤ m && m ≤ 57343 then
                    some (Char.ofNat (65536 + (n - 55296) * 1024 +
                      (m - 56320)), r3)
                  else none
              else none
            | _ => none
          else if 56320 ≤ n && n ≤ 57343 then none
          else some (Char.ofNat n, r2)) := rfl

theorem parseStrStep_uEsc (n : Nat) (h : n < 65536)
    (hs1 : (55296 ≤ n && n ≤ 56319) = false)
    (hs2 : (56320 ≤ n && n ≤ 57343) = false) (tl : List Char) :
    parseStrStep (uEsc n ++ tl) = some (some (Char.ofNat n), tl) := by
  rw [show uEsc n ++ tl
      = '\\' :: 'u' :: hexChar (n / 4096 % 16) :: hexChar (n / 256 % 16) ::
        hexChar (n / 16 % 16) :: hexChar (n % 16) :: tl from rfl]
  rw [show parseStrStep ('\\' :: 'u' :: hexChar (n / 4096 % 16) ::
        hexChar (n / 256 % 16) :: hexChar (n / 16 % 16) ::
        hexChar (n % 16) :: tl)
      = (parseEscape 'u' (hexChar (n / 4096 % 16) :: hexChar (n / 256 % 16) ::
          hexChar (n / 16 % 16) :: hexChar (n % 16) :: tl)).map
          (fun p => (some p.1, p.2)) from rfl]
  rw [parseEscape_u, hex4_uEsc n h]
  dsimp only
  rw [hs1, hs2]
  rfl


theorem parseStrStep_surr (n : Nat) (h1 : 65536 ≤ n) (h2 : n < 1114112)
    (tl : List Char) :
    parseStrStep ((uEsc (55296 + (n - 65536) / 1024) ++
      uEsc (56320 + (n - 65536) % 1024)) ++ tl)
      = some (some (Char.ofNat n), tl) := by
  rw [show (uEsc (55296 + (n - 65536) / 1024) ++
        uEsc (56320 + (n - 65536) % 1024)) ++ tl
      = '\\' :: 'u' ::
        hexChar ((55296 + (n - 65536) / 1024) / 4096 % 16) ::
        hexChar ((55296 + (n - 65536) / 1024) / 256 % 16) ::
        hexChar ((55296 + (n - 65536) / 1024) / 16 % 16) ::
        hexChar ((55296 + (n - 65536) / 1024) % 16) ::
        ('\\' :: 'u' ::
          hexChar ((56320 + (n - 65536) % 1024) / 4096 % 16) ::
          hexChar ((56320 + (n - 65536) % 1024) / 256 % 16) ::
          hexChar ((56320 + (n - 65536) % 1024) / 16 % 16) ::
          hexChar ((56320 + (n - 65536) % 1024) % 16) :: tl) from rfl]
  rw [show parseStrStep ('\\' :: 'u' ::
        hexChar ((55296 + (n - 65536) / 1024) / 4096 % 16) ::
        hexChar ((55296 + (n - 65536) / 1024) / 256 % 16) ::
        hexChar ((55296 + (n - 65536) / 1024) / 16 % 16) ::
        hexChar ((55296 + (n - 65536) / 1024) % 16) ::
        ('\\' :: 'u' ::
          hexChar ((56320 + (n - 65536) % 1024) / 4096 % 16) ::
          hexChar ((56320 + (n - 65536) % 1024) / 256 % 16) ::
          hexChar ((56320 + (n - 65536) % 1024) / 16 % 16) ::
          hexChar ((56320 + (n - 65536) % 1024) % 16) :: tl))
      = (parseEscape 'u' (
          hexChar ((55296 + (n - 65536) / 1024) / 4096 % 16) ::
          hexChar ((55296 + (n - 65536) / 1024) / 256 % 16) ::
          hexChar ((55296 + (n - 65536) / 1024) / 16 % 16) ::
          hexChar ((55296 + (n - 65536) / 1024) % 16) ::
          ('\\' :: 'u' ::
            hexChar ((56320 + (n - 65536) % 1024) / 4096 % 16) ::
            hexChar ((56320 + (n - 65536) % 1024) / 256 % 16) ::
            hexChar ((56320 + (n - 65536) % 1024) / 16 % 16) ::
            hexChar ((56320 + (n - 65536) % 1024) % 16) :: tl))).map
          (fun p => (some p.1, p.2)) from rfl]
  rw [parseEscape_u, hex4_uEsc (55296 + (n - 65536) / 1024) (by omega)]
  dsimp only
  rw [if_pos (by simp only [Bool.and_eq_true, decide_eq_true_eq]; omega)]
  rw [if_pos (by decide)]
  rw [hex4_uEsc (56320 + (n - 65536) % 1024) (by omega)]
  dsimp only
  rw [if_pos (by simp only [Bool.and_eq_true, decide_eq_true_eq]; omega)]
  rw [show 65536 + (55296 + (n - 65536) / 1024 - 55296) * 1024 +
      (56320 + (n - 65536) % 1024 - 56320) = n from by omega]
  rfl


theorem char_valid_nat (c : Char) :
    c.toNat < 55296 ∨ (57344 ≤ c.toNat ∧ c.toNat < 1114112) := by
  have h := c.valid
  simp only [UInt32.isValidChar, Nat.isValidChar, Char.toNat] at h ⊢
  omega

theorem parseStrStep_esc (c : Char) (tl : List Char) :
    parseStrStep (escChar c ++ tl) = some (some c, tl) := by
  by_cases h1 : c = '"'
  · subst h1
    rfl
  by_cases h2 : c = '\\'
  · subst h2
    rfl
  by_cases h8 : c.toNat = 8
  · have he : escChar c = ['\\', 'b'] := by
      simp only [escChar]
      rw [if_neg h1, if_neg h2, if_pos h8]
    rw [he, show parseStrStep (['\\', 'b'] ++ tl)
      = some (some (Char.ofNat 8), tl) from rfl, ← h8, Char.ofNat_toNat]
  by_cases h9 : c.toNat = 9
  · have he : escChar c = ['\\', 't'] := by
      simp only [escChar]
      rw [if_neg h1, if_neg h2, if_neg h8, if_pos h9]
    rw [he, show parseStrStep (['\\', 't'] ++ tl)
      = some (some (Char.ofNat 9), tl) from rfl, ← h9, Char.ofNat_toNat]
  by_cases h10 : c.toNat = 10
  · have he : escChar c = ['\\', 'n'] := by
      simp only [escChar]
      rw [if_neg h1, if_neg h2, if_neg h8, if_neg h9, if_pos h10]
    rw [he, show parseStrStep (['\\', 'n'] ++ tl)
      = some (some (Char.ofNat 10), tl) from rfl, ← h10, Char.ofNat_toNat]
  by_cases h12 : c.toNat = 12
  · have he : escChar c = ['\\', 'f'] := by
      simp only [escChar]
      rw [if_neg h1, if_neg h2, if_neg h8, if_neg h9, if_neg h10, if_pos h12]
    rw [he, show parseStrStep (['\\', 'f'] ++ tl)
      = some (some (Char.ofNat 12), tl) from rfl, ← h12, Char.ofNat_toNat]
  by_cases h13 : c.toNat = 13
  · have he : escChar c = ['\\', 'r'] := by
      simp only [escChar]
      rw [if_neg h1, if_neg h2, if_neg h8, if_neg h9, if_neg h10, if_neg h12,
        if_pos h13]
    rw [he, show parseStrStep (['\\', 'r'] ++ tl)
      = some (some (Char.ofNat 13), tl) from rfl, ← h13, Char.ofNat_toNat]
  by_cases h32 : c.toNat < 32
  · have he : escChar c = uEsc c.toNat := by
      simp only [escChar]
      rw [if_neg h1, if_neg h2, if_neg h8, if_neg h9, if_neg h10, if_neg h12,
        if_neg h13, if_pos h32]
    rw [he, parseStrStep_uEsc c.toNat (by omega)
      (by rw [Bool.eq_false_iff]; simp only [ne_eq, Bool.and_eq_true, decide_eq_true_eq, not_and]; omega)
      (by rw [Bool.eq_false_iff]; simp only [ne_eq, Bool.and_eq_true, decide_eq_true_eq, not_and]; omega) tl,
      Char.ofNat_toNat]
  by_cases h127 : c.toNat < 127
  · have he : escChar c = [c] := by
      simp only [escChar]
      rw [if_neg h1, if_neg h2, if_neg h8, if_neg h9, if_neg h10, if_neg h12,
        if_neg h13, if_neg h32, if_pos h127]
    rw [he, show ([c] : List Char) ++ tl = c :: tl from rfl,
      parseStrStep_cons, if_neg h1, if_neg h2]
  by_cases hbmp : c.toNat < 65536
  · have he : escChar c = uEsc c.toNat := by
      simp only [escChar]
      rw [if_neg h1, if_neg h2, if_neg h8, if_neg h9, if_neg h10, if_neg h12,
        if_neg h13, if_neg h32, if_neg h127, if_pos hbmp]
    have hv := char_valid_nat c
    rw [he, parseStrStep_uEsc c.toNat (by omega)
      (by rw [Bool.eq_false_iff]; simp only [ne_eq, Bool.and_eq_true, decide_eq_true_eq, not_and]; omega)
      (by rw [Bool.eq_false_iff]; simp only [ne_eq, Bool.and_eq_true, decide_eq_true_eq, not_and]; omega) tl,
      Char.ofNat_toNat]
  · have he : escChar c = uEsc (55296 + (c.toNat - 65536) / 1024) ++
        uEsc (56320 + (c.toNat - 65536) % 1024) := by
      simp only [escChar]
      rw [if_neg h1, if_neg h2, if_neg h8, if_neg h9, if_neg h10, if_neg h12,
        if_neg h13, if_neg h32, if_neg h127, if_neg hbmp]
    have hv := char_valid_nat c
    rw [he, parseStrStep_surr c.toNat (by omega) (by omega) tl,
      Char.ofNat_toNat]

set_option maxHeartbeats 800000 in
theorem escChar_length_pos (c : Char) : 0 < (escChar c).length := by
  simp only [escChar]
  split_ifs <;>
    simp only [uEsc, List.length_cons, List.length_nil,
      List.length_append] <;>
    omega

theorem parseStrLoop_dump (s rest : List Char) : ∀ fuel : Nat,
    (s.flatMap escChar).length < fuel →
    parseStrLoop fuel (s.flatMap escChar ++ '"' :: rest) = some (s, rest) := by
  induction s with
  | nil =>
    intro fuel hf
    obtain ⟨f, rfl⟩ : ∃ f, fuel = f + 1 := ⟨fuel - 1, by omega⟩
    rfl
  | cons c s ih =>
    intro fuel hf
    obtain ⟨f, rfl⟩ : ∃ f, fuel = f + 1 := ⟨fuel - 1, by omega⟩
    rw [List.flatMap_cons, List.append_assoc]
    rw [show parseStrLoop (f + 1)
        (escChar c ++ (s.flatMap escChar ++ '"' :: rest))
      = (match parseStrStep (escChar c ++ (s.flatMap escChar ++ '"' :: rest))
          with
        | none => none
        | some (none, r2) => some ([], r2)
        | some (some ch, r2) =>
          (parseStrLoop f r2).map (fun p => (ch :: p.1, p.2))) from rfl]
    rw [parseStrStep_esc]
    dsimp only
    rw [ih f (by
      have hc := escChar_length_pos c
      rw [List.flatMap_cons, List.length_append] at hf
      omega)]
    rfl

theorem parseStr_dump (s rest : List Char) :
    parseStrChars (s.flatMap escChar ++ '"' :: rest) = some (s, rest) := by
  unfold parseStrChars
  exact parseStrLoop_dump s rest _ (by
    rw [List.length_append]
    simp)

theorem digit_tab : ∀ m < 10, isDig (Char.ofNat (48 + m)) = true
    ∧ (Char.ofNat (48 + m)).toNat = 48 + m := by decide

theorem natDigitsAux_eq (fuel n : Nat) :
    natDigitsAux (fuel + 1) n
      = (if n < 10 then [Char.ofNat (48 + n)]
        else natDigitsAux fuel (n / 10) ++ [Char.ofNat (48 + n % 10)]) := rfl

theorem natDigitsAux_isDig : ∀ fuel n, n < fuel →
    ∀ c ∈ natDigitsAux fuel n, isDig c = true := by
  intro fuel
  induction fuel with
  | zero => intro n h; omega
  | succ fuel ih =>
    intro n _ c hc
    rw [natDigitsAux_eq] at hc
    by_cases hn : n < 10
    · rw [if_pos hn] at hc
      rw [List.mem_singleton.mp hc]
      exact (digit_tab n hn).1
    · rw [if_neg hn] at hc
      rcases List.mem_append.mp hc with h1 | h1
      · exact ih (n / 10) (by omega) c h1
      · rw [List.mem_singleton.mp h1]
        exact (digit_tab (n % 10) (by omega)).1

theorem natDigitsAux_ne_nil (fuel n : Nat) (h : n < fuel) :
    natDigitsAux fuel n ≠ [] := by
  obtain ⟨f, rfl⟩ : ∃ f, fuel = f + 1 := ⟨fuel - 1, by omega⟩
  rw [natDigitsAux_eq]
  by_cases hn : n < 10
  · rw [if_pos hn]
    simp
  · rw [if_neg hn]
    simp

theorem foldl_natDigitsAux : ∀ fuel n, n < fuel → ∀ acc : Nat,
    (natDigitsAux fuel n).foldl (fun a d => a * 10 + (d.toNat - 48)) acc
      = acc * 10 ^ (natDigitsAux fuel n).length + n := by
  intro fuel
  induction fuel with
  | zero => intro n h; omega
  | succ fuel ih =>
    intro n _ acc
    rw [natDigitsAux_eq]
    by_cases hn : n < 10
    · rw [if_pos hn]
      rw [List.foldl_cons, List.foldl_nil, (digit_tab n hn).2,
        List.length_singleton, pow_one]
      omega
    · rw [if_neg hn]
      rw [List.foldl_append, ih (n / 10) (by omega) acc, List.foldl_cons,
        List.foldl_nil, (digit_tab (n % 10) (by omega)).2,
        List.length_append, List.length_singleton, pow_succ, ← mul_assoc]
      generalize acc * 10 ^ (natDigitsAux fuel (n / 10)).length = Q
      omega

theorem parseDigits_cons (c : Char) (rest : List Char) (acc : Nat) :
    parseDigits (c :: rest) acc
      = (if isDig c then parseDigits rest (acc * 10 + (c.toNat - 48))
        else (acc, c :: rest)) := rfl

theorem parseDigits_digits (ds : List Char)
    (hds : ∀ d ∈ ds, isDig d = true) (c : Char) (hc : isDig c = false)
    (tl : List Char) : ∀ acc : Nat,
    parseDigits (ds ++ c :: tl) acc
      = (ds.foldl (fun a d => a * 10 + (d.toNat - 48)) acc, c :: tl) := by
  induction ds with
  | nil =>
    intro acc
    rw [List.nil_append, parseDigits_cons, hc, List.foldl_nil]
    rfl
  | cons d ds ih =>
    intro acc
    rw [List.cons_append, parseDigits_cons, hds d (List.mem_cons_self d ds),
      if_pos rfl,
      ih (fun e he => hds e (List.mem_cons_of_mem d he)) (acc * 10 + (d.toNat - 48)),
      List.foldl_cons]

theorem natDigits_head (n : Nat) :
    ∃ d ds, natDigits n = d :: ds ∧ isDig d = true := by
  cases hnd : natDigits n with
  | nil => exact absurd hnd (natDigitsAux_ne_nil (n + 1) n (by omega))
  | cons d ds =>
    refine ⟨d, ds, rfl, ?_⟩
    exact natDigitsAux_isDig (n + 1) n (by omega) d
      (by rw [show natDigitsAux (n + 1) n = natDigits n from rfl, hnd]; simp)

theorem parseDigits_natDigits (n : Nat) (c : Char) (hc : isDig c = false)
    (tl : List Char) :
    parseDigits (natDigits n ++ c :: tl) 0 = (n, c :: tl) := by
  unfold natDigits
  rw [parseDigits_digits (natDigitsAux (n + 1) n)
    (natDigitsAux_isDig (n + 1) n (by omega)) c hc tl 0,
    foldl_natDigitsAux (n + 1) n (by omega) 0]
  simp

theorem parseIntChars_cons (c : Char) (rest : List Char) :
    parseIntChars (c :: rest)
      = (if c = '-' then
          match rest with
          | [] => none
          | d :: _ =>
            if isDig d then
              some (-((parseDigits rest 0).1 : Int), (parseDigits rest 0).2)
            else none
        else if isDig c then
          some (((parseDigits (c :: rest) 0).1 : Int),
            (parseDigits (c :: rest) 0).2)
        else none) := rfl

theorem isDig_ne_dash (c : Char) (h : isDig c = true) : ¬c = '-' := by
  intro he
  rw [he] at h
  exact absurd h (by decide)

theorem isDig_ne_quote (c : Char) (h : isDig c = true) : ¬c = '"' := by
  intro he
  rw [he] at h
  exact absurd h (by decide)

theorem parseInt_dumpInt (i : Int) (c : Char) (hc : isDig c = false)
    (tl : List Char) :
    parseIntChars (dumpInt i ++ c :: tl) = some (i, c :: tl) := by
  by_cases hi : i < 0
  · have hd : dumpInt i ++ c :: tl
        = '-' :: (natDigits (-i).toNat ++ c :: tl) := by
      unfold dumpInt
      rw [if_pos hi, List.cons_append]
    have hp := parseDigits_natDigits (-i).toNat c hc tl
    obtain ⟨d, ds, hnd, hdig⟩ := natDigits_head (-i).toNat
    rw [hd, parseIntChars_cons, if_pos rfl]
    rw [hnd] at hp ⊢
    rw [List.cons_append]
    dsimp only
    rw [hdig, if_pos rfl, ← List.cons_append, hp]
    rw [Int.toNat_of_nonneg (by omega), neg_neg]
  · have hp := parseDigits_natDigits i.toNat c hc tl
    obtain ⟨d, ds, hnd, hdig⟩ := natDigits_head i.toNat
    have hd : dumpInt i ++ c :: tl = d :: (ds ++ c :: tl) := by
      unfold dumpInt
      rw [if_neg hi, hnd, List.cons_append]
    rw [hnd, List.cons_append] at hp
    rw [hd, parseIntChars_cons, if_neg (isDig_ne_dash d hdig), hdig,
      if_pos rfl, hp]
    rw [Int.toNat_of_nonneg (by omega)]

theorem parseJVal_cons (c : Char) (rest : List Char) :
    parseJVal (c :: rest)
      = (if c = '"' then
          (parseStrChars rest).map (fun p => (JVal.jstr (String.mk p.1), p.2))
        else (parseIntChars (c :: rest)).map
          (fun p => (JVal.jnum p.1, p.2))) := rfl

theorem parseJVal_dump (v : JVal) (c : Char) (hc : isDig c = false)
    (tl : List Char) :
    parseJVal (dumpJVal v ++ c :: tl) = some (v, c :: tl) := by
  cases v with
  | jstr s =>
    show parseJVal (dumpStr s.data ++ c :: tl) = _
    rw [show dumpStr s.data ++ c :: tl
        = '"' :: (s.data.flatMap escChar ++ '"' :: (c :: tl)) from by
          unfold dumpStr
          simp [List.append_assoc]]
    rw [parseJVal_cons, if_pos rfl, parseStr_dump s.data (c :: tl)]
    rfl
  | jnum i =>
    have hp := parseInt_dumpInt i c hc tl
    by_cases hi : i < 0
    · have hd : dumpInt i ++ c :: tl
          = '-' :: (natDigits (-i).toNat ++ c :: tl) := by
        unfold dumpInt
        rw [if_pos hi, List.cons_append]
      show parseJVal (dumpInt i ++ c :: tl) = _
      rw [hd, parseJVal_cons, if_neg (by decide), ← hd, hp]
      rfl
    · obtain ⟨d, ds, hnd, hdig⟩ := natDigits_head i.toNat
      have hd : dumpInt i ++ c :: tl = d :: (ds ++ c :: tl) := by
        unfold dumpInt
        rw [if_neg hi, hnd, List.cons_append]
      show parseJVal (dumpInt i ++ c :: tl) = _
      rw [hd, parseJVal_cons, if_neg (isDig_ne_quote d hdig), ← hd, hp]
      rfl

theorem parseEntry_cons (c : Char) (rest : List Char) :
    parseEntry (c :: rest)
      = (if c = '"' then
          match parseStrChars rest with
          | none => none
          | some (k, r1) =>
            match r1 with
            | c1 :: c2 :: r2 =>
              if c1 = ':' && c2 = ' ' then
                (parseJVal r2).map (fun p => ((String.mk k, p.1), p.2))
              else none
            | _ => none
        else none) := rfl

theorem parseEntry_dump (k : String) (v : JVal) (c : Char)
    (hc : isDig c = false) (tl : List Char) :
    parseEntry ((dumpStr k.data ++ ':' :: ' ' :: dumpJVal v) ++ c :: tl)
      = some ((k, v), c :: tl) := by
  rw [show (dumpStr k.data ++ ':' :: ' ' :: dumpJVal v) ++ c :: tl
      = '"' :: (k.data.flatMap escChar ++
        '"' :: (':' :: ' ' :: (dumpJVal v ++ c :: tl))) from by
        unfold dumpStr
        simp [List.append_assoc]]
  rw [parseEntry_cons, if_pos rfl, parseStr_dump]
  dsimp only
  rw [if_pos (by decide), parseJVal_dump v c hc tl]
  rfl

theorem parseEntries_succ (f : Nat) (l : List Char) :
    parseEntries (f + 1) l
      = (match parseEntry l with
        | none => none
        | some (kv, r3) =>
          match r3 with
          | d1 :: d2 :: r4 =>
            if d1 = ',' && d2 = ' ' then
              (parseEntries f r4).map (fun p => (kv :: p.1, p.2))
            else if d1 = rbraceC then some ([kv], d2 :: r4)
            else none
          | [d1] => if d1 = rbraceC then some ([kv], []) else none
          | [] => none) := rfl

theorem parseEntries_dump : ∀ (o : JObj) (fuel : Nat), o ≠ [] →
    o.length ≤ fuel →
    parseEntries fuel (dumpEntries o ++ [rbraceC]) = some (o, []) := by
  intro o
  induction o with
  | nil => intro fuel h _; exact absurd rfl h
  | cons p rest ih =>
    intro fuel _ hf
    obtain ⟨f, rfl⟩ : ∃ f, fuel = f + 1 :=
      ⟨fuel - 1, by simp at hf; omega⟩
    cases rest with
    | nil =>
      rw [show dumpEntries [p] ++ [rbraceC]
          = (dumpStr p.1.data ++ ':' :: ' ' :: dumpJVal p.2) ++
            rbraceC :: ([] : List Char) from rfl]
      rw [parseEntries_succ, parseEntry_dump p.1 p.2 rbraceC (by decide) []]
      dsimp only
      rw [if_pos rfl]
    | cons q rest2 =>
      rw [show dumpEntries (p :: q :: rest2) ++ [rbraceC]
          = (dumpStr p.1.data ++ ':' :: ' ' :: dumpJVal p.2) ++
            ',' :: (' ' :: (dumpEntries (q :: rest2) ++ [rbraceC])) from by
            rw [show dumpEntries (p :: q :: rest2)
              = dumpStr p.1.data ++ ':' :: ' ' :: dumpJVal p.2 ++ ',' :: ' ' ::
                dumpEntries (q :: rest2) from rfl]
            simp [List.append_assoc]]
      rw [parseEntries_succ, parseEntry_dump p.1 p.2 ','
        (by decide) (' ' :: (dumpEntries (q :: rest2) ++ [rbraceC]))]
      dsimp only
      rw [if_pos (by decide), ih f (by simp) (by simp at hf ⊢; omega)]
      rfl

theorem dumpEntries_length (o : JObj) : o.length ≤ (dumpEntries o).length := by
  induction o with
  | nil => simp [dumpEntries]
  | cons p rest ih =>
    cases rest with
    | nil =>
      rw [show dumpEntries [p]
        = dumpStr p.1.data ++ ':' :: ' ' :: dumpJVal p.2 from rfl]
      rw [show dumpStr p.1.data
        = '"' :: p.1.data.flatMap escChar ++ ['"'] from rfl]
      simp
    | cons q rest2 =>
      rw [show dumpEntries (p :: q :: rest2)
        = dumpStr p.1.data ++ ':' :: ' ' :: dumpJVal p.2 ++ ',' :: ' ' ::
          dumpEntries (q :: rest2) from rfl]
      simp at ih ⊢
      omega

theorem parseObj_cons (c : Char) (rest : List Char) :
    parseObj (c :: rest)
      = (if c = lbraceC then
          match rest with
          | c2 :: rest2 =>
            if c2 = rbraceC then some ([], rest2)
            else parseEntries rest.length rest
          | [] => none
        else none) := rfl

theorem parseObj_dumpObj (o : JObj) : parseObj (dumpObj o) = some (o, []) := by
  cases o with
  | nil => rfl
  | cons p rest =>
    obtain ⟨X, hX⟩ : ∃ X, dumpEntries (p :: rest) = '"' :: X := by
      cases rest with
      | nil => exact ⟨_, rfl⟩
      | cons q rest2 => exact ⟨_, rfl⟩
    rw [show dumpObj (p :: rest)
      = lbraceC :: (dumpEntries (p :: rest) ++ [rbraceC]) from rfl]
    rw [parseObj_cons, if_pos rfl]
    rw [hX, List.cons_append]
    dsimp only
    rw [if_neg (by decide), ← List.cons_append, ← hX]
    exact parseEntries_dump (p :: rest) _ (by simp) (by
      simp only [List.length_append]
      have := dumpEntries_length (p :: rest)
      simp at this ⊢
      omega)

theorem hexChar_lt : ∀ n < 16, (hexChar n).toNat < 256 := by decide

theorem uEsc_lt (n : Nat) : ∀ c ∈ uEsc n, c.toNat < 256 := by
  intro c hc
  simp only [uEsc, List.mem_cons, List.not_mem_nil, or_false] at hc
  rcases hc with rfl | rfl | rfl | rfl | rfl | rfl
  · decide
  · decide
  · exact hexChar_lt (n / 4096 % 16) (by omega)
  · exact hexChar_lt (n / 256 % 16) (by omega)
  · exact hexChar_lt (n / 16 % 16) (by omega)
  · exact hexChar_lt (n % 16) (by omega)

set_option maxHeartbeats 800000 in
theorem escChar_lt (c : Char) : ∀ d ∈ escChar c, d.toNat < 256 := by
  intro d hd
  simp only [escChar] at hd
  split_ifs at hd with h1 h2 h3 h4 h5 h6 h7 h8 h9 h10
  · rcases (by simpa using hd : d = '\\' ∨ d = '"') with rfl | rfl <;> decide
  · rcases (by simpa using hd : d = '\\' ∨ d = '\\') with rfl | rfl <;> decide
  · rcases (by simpa using hd : d = '\\' ∨ d = 'b') with rfl | rfl <;> decide
  · rcases (by simpa using hd : d = '\\' ∨ d = 't') with rfl | rfl <;> decide
  · rcases (by simpa using hd : d = '\\' ∨ d = 'n') with rfl | rfl <;> decide
  · rcases (by simpa using hd : d = '\\' ∨ d = 'f') with rfl | rfl <;> decide
  · rcases (by simpa using hd : d = '\\' ∨ d = 'r') with rfl | rfl <;> decide
  · exact uEsc_lt c.toNat d hd
  · rw [List.mem_singleton.mp hd]
    omega
  · exact uEsc_lt c.toNat d hd
  · rcases List.mem_append.mp hd with h | h
    · exact uEsc_lt _ d h
    · exact uEsc_lt _ d h

theorem natDigitsAux_lt : ∀ fuel n, n < fuel →
    ∀ c ∈ natDigitsAux fuel n, c.toNat < 256 := by
  intro fuel
  induction fuel with
  | zero => intro n h; omega
  | succ fuel ih =>
    intro n _ c hc
    rw [natDigitsAux_eq] at hc
    by_cases hn : n < 10
    · rw [if_pos hn] at hc
      rw [List.mem_singleton.mp hc, (digit_tab n hn).2]
      omega
    · rw [if_neg hn] at hc
      rcases List.mem_append.mp hc with h1 | h1
      · exact ih (n / 10) (by omega) c h1
      · rw [List.mem_singleton.mp h1, (digit_tab (n % 10) (by omega)).2]
        omega

theorem dumpInt_lt (i : Int) : ∀ c ∈ dumpInt i, c.toNat < 256 := by
  intro c hc
  unfold dumpInt at hc
  by_cases hi : i < 0
  · rw [if_pos hi] at hc
    rcases List.mem_cons.mp hc with rfl | h
    · decide
    · exact natDigitsAux_lt _ _ (by omega) c h
  · rw [if_neg hi] at hc
    exact natDigitsAux_lt _ _ (by omega) c hc

theorem dumpStr_lt (s : List Char) : ∀ c ∈ dumpStr s, c.toNat < 256 := by
  intro c hc
  unfold dumpStr at hc
  rcases List.mem_cons.mp hc with rfl | h
  · decide
  rcases List.mem_append.mp h with h1 | h1
  · obtain ⟨d, _, hd2⟩ := List.mem_flatMap.mp h1
    exact escChar_lt d c hd2
  · rw [List.mem_singleton.mp h1]
    decide

theorem dumpJVal_lt (v : JVal) : ∀ c ∈ dumpJVal v, c.toNat < 256 := by
  intro c hc
  cases v with
  | jstr s => exact dumpStr_lt s.data c hc
  | jnum i => exact dumpInt_lt i c hc

theorem dumpEntries_lt : ∀ (o : JObj), ∀ c ∈ dumpEntries o, c.toNat < 256 := by
  intro o
  induction o with
  | nil => intro c hc; cases hc
  | cons p rest ih =>
    intro c hc
    cases rest with
    | nil =>
      rw [show dumpEntries [p]
        = dumpStr p.1.data ++ ':' :: ' ' :: dumpJVal p.2 from rfl] at hc
      rcases List.mem_append.mp hc with h | h
      · exact dumpStr_lt p.1.data c h
      rcases List.mem_cons.mp h with rfl | h2
      · decide
      rcases List.mem_cons.mp h2 with rfl | h3
      · decide
      · exact dumpJVal_lt p.2 c h3
    | cons q rest2 =>
      rw [show dumpEntries (p :: q :: rest2)
        = dumpStr p.1.data ++ ':' :: ' ' :: dumpJVal p.2 ++ ',' :: ' ' ::
          dumpEntries (q :: rest2) from rfl] at hc
      rcases List.mem_append.mp hc with h | h
      · rcases List.mem_append.mp h with h1 | h1
        · exact dumpStr_lt p.1.data c h1
        rcases List.mem_cons.mp h1 with rfl | h2
        · decide
        rcases List.mem_cons.mp h2 with rfl | h3
        · decide
        · exact dumpJVal_lt p.2 c h3
      · rcases List.mem_cons.mp h with rfl | h2
        · decide
        rcases List.mem_cons.mp h2 with rfl | h3
        · decide
        · exact ih c h3

theorem dumpObj_lt (o : JObj) : ∀ c ∈ dumpObj o, c.toNat < 256 := by
  intro c hc
  unfold dumpObj at hc
  rcases List.mem_cons.mp hc with rfl | h
  · decide
  rcases List.mem_append.mp h with h1 | h1
  · exact dumpEntries_lt o c h1
  · rw [List.mem_singleton.mp h1]
    decide

/-- C7: `decode_page_token` is a left inverse of `encode_page_token` on every
flat string/int position object, and on the `none` token. -/
theorem c7_page_token_round_trip :
    ∀ t : Option JObj, decodePageToken (encodePageToken t) = some t := by
  intro t
  cases t with
  | none => rfl
  | some o =>
    have hb : ∀ b ∈ dumpTokenBytes o, b < 256 := by
      intro b hbm
      unfold dumpTokenBytes at hbm
      obtain ⟨c, hc, rfl⟩ := List.mem_map.mp hbm
      exact dumpObj_lt o c hc
    have hmap : (dumpTokenBytes o).map Char.ofNat = dumpObj o := by
      unfold dumpTokenBytes
      rw [List.map_map,
        show Char.ofNat ∘ Char.toNat = id from funext Char.ofNat_toNat,
        List.map_id]
    show (do
        let bs ← b64decodeChars (b64encodeBytes (dumpTokenBytes o))
        let po ← parseObj (bs.map Char.ofNat)
        if po.2.isEmpty then pure (some po.1) else none
      : Option (Option JObj)) = some (some o)
    rw [b64_round_trip (dumpTokenBytes o).length (dumpTokenBytes o) le_rfl hb]
    show (do
        let po ← parseObj ((dumpTokenBytes o).map Char.ofNat)
        if po.2.isEmpty then pure (some po.1) else none
      : Option (Option JObj)) = some (some o)
    rw [hmap, parseObj_dumpObj]
    rfl

end Qnddb
